import Mathlib

/-!
Verification development for the `oc-tools` mediapackage export/merge subsystem
(`migration/migration.py` together with the shared copy logic of
`migration/migrate_archived.py` and `migration/migrate_published.py`).

The Python code is shallowly embedded:

* Python `str` values that undergo character-level manipulation (the
  `posixpath` / `os.path` pipeline of `PublishServiceExport._get_clean_path`
  and `PublishServiceExport.__get_dst_path`) are modelled as `List Char`;
  the relevant CPython 2.7 library functions (`posixpath.split`, `dirname`,
  `basename`, `splitext`, `join`, `normpath`, `relpath`, `str.partition`,
  `str.split('/')`, `genericpath.commonprefix`) are translated faithfully.
  `os.path` is `posixpath` on the platform the scripts run on.
* A URL handed to `_get_clean_path` is represented by the result of
  `urlparse.urlparse`: its `scheme`, `netloc` and `path` components (the
  query/params/fragment components play no role in the embedded code).
* Python dicts keyed by strings are association lists with Python's
  assignment semantics (`dictInsert` replaces the value of an existing key in
  place, otherwise appends).
* lxml element trees are reduced to the data the export code reads and
  writes: a mediapackage is a list of elements (one `url` child each, in
  document order) plus the presence of the `publications` and `media`
  category nodes; an element carries its XML tag, `id`, `type` (flavor),
  `transport`, optional `mimetype` child and optional `tags` child.
  lxml child/descendant iterators prefetch the next sibling before yielding,
  so removing the just-yielded node does not skip elements; the loops are
  therefore modelled as full traversals of the original child list.
* Exceptions are explicit values: functions return the mutated state
  together with `Option Exc` (mutations performed before a `raise` are kept,
  as in Python).
* Filesystem and network effects are parameters: a backend query is a
  function `String → List MP`, path resolution (`_get_paths`) is a function
  `String → Except Exc (String × String)`, files are `PyFile` records with
  the stat data `filecmp` reads.
-/

namespace Migration

/-! ## Python dictionaries as association lists -/

/-- First-match lookup in an association list (Python `d[k]` / `k in d`). -/
def dlookup {β : Type} : List (String × β) → String → Option β
  | [], _ => none
  | (k', v) :: t, k => if k' = k then some v else dlookup t k

/-- Python `d[k] = v`: replace the value of an existing key in place,
otherwise append the new binding. -/
def dictInsert {β : Type} (d : List (String × β)) (k : String) (v : β) :
    List (String × β) :=
  if (dlookup d k).isSome then
    d.map (fun p => if p.1 = k then (k, v) else p)
  else d ++ [(k, v)]

/-- Python `d.update(e)`. -/
def dictUpdate {β : Type} (d e : List (String × β)) : List (String × β) :=
  e.foldl (fun acc kv => dictInsert acc kv.1 kv.2) d

/-- The key set of a dictionary, in insertion order. -/
def keysOf {β : Type} (d : List (String × β)) : List String :=
  d.map Prod.fst

/-- All keys distinct (automatic for a real Python dict). -/
def NodupKeys {β : Type} (d : List (String × β)) : Prop :=
  (keysOf d).Nodup

/-! ## Files and `filecmp.cmp` (claim C5)

`migrate_archived.copy_element_and_fix_url` and
`migrate_published.copy_element` both guard the copy with
`not (os.path.exists(dst_path) and filecmp.cmp(src_path, dst_path))`.
`filecmp.cmp` is called without the `shallow` argument, so `shallow=1`.
A file is modelled by the stat data `filecmp._sig` reads
(`S_IFMT(st_mode)`, `st_size`, `st_mtime`) plus its byte content;
`st_size` is the length of the content. -/

/-- `stat.S_IFREG`. -/
def S_IFREG : Nat := 32768

/-- A regular on-disk file as seen by `os.stat` and `open`. -/
structure PyFile where
  ifmt : Nat
  mtime : Int
  content : List Nat
deriving DecidableEq

/-- `filecmp._sig(os.stat(f))`: `(S_IFMT(st_mode), st_size, st_mtime)`. -/
def fileSig (f : PyFile) : Nat × Nat × Int :=
  (f.ifmt, f.content.length, f.mtime)

/-- `filecmp.cmp(f1, f2)` with the default `shallow=1`: both must be regular
files; equal stat signatures short-circuit to `True` without reading the
contents; otherwise differing sizes give `False`, else the contents are
compared byte for byte (`filecmp._do_cmp`). -/
def filecmpCmp (f1 f2 : PyFile) : Bool :=
  if f1.ifmt ≠ S_IFREG ∨ f2.ifmt ≠ S_IFREG then false
  else if fileSig f1 = fileSig f2 then true
  else if f1.content.length ≠ f2.content.length then false
  else f1.content = f2.content

/-- The re-run skip decision of `copy_element` / `copy_element_and_fix_url`:
the copy is skipped (the `shutil.copyfile` branch is not taken) exactly when
`os.path.exists(dst_path) and filecmp.cmp(src_path, dst_path)` holds.
`dstFile` is the destination file if it exists. -/
def skipsCopy (srcFile : PyFile) (dstFile : Option PyFile) : Bool :=
  match dstFile with
  | none => false
  | some d => filecmpCmp srcFile d

/-! ## Python strings and the `posixpath` layer

Python strings are `List Char`.  Positions follow CPython: `rfind` returns
the highest index of the character or `-1`. -/

/-- `s.rfind(c) + 1`, as a natural number (`0` when `c` does not occur). -/
def lastPosSucc (c : Char) : List Char → Nat
  | [] => 0
  | ch :: t =>
    let r := lastPosSucc c t
    if r = 0 then (if ch = c then 1 else 0) else r + 1

/-- Python `s.rfind(c)` (`-1` when absent). -/
def pyRfind (s : List Char) (c : Char) : Int :=
  (lastPosSucc c s : Int) - 1

/-- Python `s.rstrip('/')`. -/
def rstripSlash (s : List Char) : List Char :=
  (s.reverse.dropWhile (fun ch => ch = '/')).reverse

/-- `posixpath.split(p)`: split after the last `'/'`; the head is stripped of
trailing slashes unless it consists of slashes only. -/
def pySplit (p : List Char) : List Char × List Char :=
  let i := lastPosSucc '/' p
  let head := p.take i
  let tail := p.drop i
  if head ≠ [] ∧ head.any (fun ch => ch ≠ '/') then (rstripSlash head, tail)
  else (head, tail)

/-- `posixpath.dirname(p)` (the head component of `posixpath.split`). -/
def pyDirname (p : List Char) : List Char :=
  (pySplit p).1

/-- `posixpath.basename(p)`: everything after the last `'/'`. -/
def pyBasename (p : List Char) : List Char :=
  p.drop (lastPosSucc '/' p)

/-- `posixpath.splitext(p)` (`genericpath._splitext` with `sep='/'`,
`extsep='.'`): split at the last dot, provided it comes after the last slash
and the filename does not consist solely of leading dots up to it. -/
def splitext (p : List Char) : List Char × List Char :=
  let sepIndex : Int := pyRfind p '/'
  let dotIndex : Int := pyRfind p '.'
  if sepIndex < dotIndex then
    let fnameStart : Nat := (sepIndex + 1).toNat
    if ((p.drop fnameStart).take (dotIndex.toNat - fnameStart)).any
        (fun ch => ch ≠ '.') then
      (p.take dotIndex.toNat, p.drop dotIndex.toNat)
    else (p, [])
  else (p, [])

/-- Python `s.partition(':')`, the separator and tail fused into an
`Option`: `(before, some after)` when `':'` occurs, `(s, none)` otherwise. -/
def partitionColon : List Char → List Char × Option (List Char)
  | [] => ([], none)
  | c :: t =>
    if c = ':' then ([], some t)
    else
      let (pre, r) := partitionColon t
      (c :: pre, r)

/-- Python `s.split('/')` (all pieces, empty pieces included). -/
def splitSlash : List Char → List (List Char)
  | [] => [[]]
  | c :: t =>
    if c = '/' then [] :: splitSlash t
    else
      match splitSlash t with
      | h :: r => (c :: h) :: r
      | [] => [[c]]

/-- `posixpath.isabs(p)`. -/
def isabs (p : List Char) : Bool :=
  p.head? = some '/'

/-- Two-argument `posixpath.join(a, b)`. -/
def pyJoin2 (a b : List Char) : List Char :=
  if b.head? = some '/' then b
  else if a = [] ∨ a.getLast? = some '/' then a ++ b
  else a ++ '/' :: b

/-- `posixpath.join(*parts)` for a non-empty list of parts (used by
`posixpath.relpath` on its `rel_list`). -/
def joinAll : List (List Char) → List Char
  | [] => []
  | a :: rest => rest.foldl (fun path b => pyJoin2 path b) a

/-- `posixpath.normpath(p)`. -/
def normpath (p : List Char) : List Char :=
  if p = [] then ['.']
  else
    let initialSlashes : Nat :=
      if p.head? = some '/' then
        if p.take 2 = ['/', '/'] ∧ p.take 3 ≠ ['/', '/', '/'] then 2 else 1
      else 0
    let comps := splitSlash p
    let newComps := comps.foldl (fun acc comp =>
      if comp = [] ∨ comp = ['.'] then acc
      else if comp ≠ ['.', '.'] ∨ (initialSlashes = 0 ∧ acc = []) ∨
          (acc ≠ [] ∧ acc.getLast? = some ['.', '.']) then acc ++ [comp]
      else if acc ≠ [] then acc.dropLast
      else acc) []
    let joined := List.intercalate ['/'] newComps
    let res := List.replicate initialSlashes '/' ++ joined
    if res = [] then ['.'] else res

/-- Python `<` on strings (ordinal comparison). -/
def strLtB : List Char → List Char → Bool
  | [], [] => false
  | [], _ :: _ => true
  | _ :: _, [] => false
  | a :: as, b :: bs =>
    if a.val < b.val then true
    else if b.val < a.val then false
    else strLtB as bs

/-- Python `<` on lists of strings (lexicographic on the elements). -/
def strListLtB : List (List Char) → List (List Char) → Bool
  | [], [] => false
  | [], _ :: _ => true
  | _ :: _, [] => false
  | a :: as, b :: bs =>
    if strLtB a b then true
    else if strLtB b a then false
    else strListLtB as bs

/-- The scanning loop of `genericpath.commonprefix`: walk `s1` while it
agrees with `s2`.  (`min`/`max` below guarantee `s2` is never exhausted
first on the inputs Python feeds it.) -/
def lcpScan : List (List Char) → List (List Char) → List (List Char)
  | [], _ => []
  | _, [] => []
  | a :: as, b :: bs => if a = b then a :: lcpScan as bs else []

/-- `genericpath.commonprefix([u, v])`: compare `min` and `max` of the two
segment lists element by element. -/
def commonPref (u v : List (List Char)) : List (List Char) :=
  let s1 := if strListLtB v u then v else u
  let s2 := if strListLtB u v then v else u
  lcpScan s1 s2

/-- The `[x for x in p.split('/') if x]` segment extraction used by
`posixpath.relpath`. -/
def nonEmptySegs (p : List Char) : List (List Char) :=
  (splitSlash p).filter (fun x => x ≠ [])

/-- `posixpath.abspath(p)` with the process working directory `cwd` made
explicit (it is consulted only for relative paths). -/
def pyAbspath (cwd p : List Char) : List Char :=
  if isabs p then normpath p else normpath (pyJoin2 cwd p)

/-- The exceptions the embedded code can raise.  The first four derive from
`MigrationException`; `attributeError` and `valueError` are the Python
built-ins raised by attribute access on `None` and by
`posixpath.relpath('')`. -/
inductive Exc where
  | notFound
  | tooManyResults
  | missingElement
  | duplicateElement
  | attributeError
  | valueError
deriving DecidableEq

/-- Membership in the `MigrationException` hierarchy (what
`except MigrationException` catches). -/
def isMigrationExc : Exc → Bool
  | .notFound => true
  | .tooManyResults => true
  | .missingElement => true
  | .duplicateElement => true
  | .attributeError => false
  | .valueError => false

/-- `posixpath.relpath(path, start)` (Python 2.7), with the working
directory explicit.  Raises `ValueError` on an empty `path`. -/
def pyRelpath (cwd path start : List Char) : Except Exc (List Char) :=
  if path = [] then .error .valueError
  else
    let startList := nonEmptySegs (pyAbspath cwd start)
    let pathList := nonEmptySegs (pyAbspath cwd path)
    let i := (commonPref startList pathList).length
    let relList := List.replicate (startList.length - i) ['.', '.'] ++
      pathList.drop i
    if relList = [] then .ok ['.']
    else .ok (joinAll relList)

/-- `SMIL_EXT = '.smil'`. -/
def SMIL_EXT_C : List Char := ['.', 's', 'm', 'i', 'l']

/-- `SMIL_TAG = 'smil'`. -/
def SMIL_TAG_C : List Char := ['s', 'm', 'i', 'l']

/-- `PublishServiceExport._get_clean_path(url)`.  The URL is given by the
components of `urlparse.urlparse(url)` (`scheme`, `netloc`, `path`); the
working directory `cwd` feeds `os.path.relpath`.  A relative URL beginning
with a stream specifier parses as a scheme with empty netloc; otherwise the
path is partitioned at `':'` to find a tag.  A `smil` tag points at the
parent directory; a missing extension is completed from the tag; the server
mount point (everything above `channel/mediapackage-id/element-id/filename`)
is stripped except for `.smil` descriptors, which live directly under the
service root. -/
def getCleanPath (cwd scheme netloc upath : List Char) :
    Except Exc (List Char) :=
  let tagPath : Option (List Char) × List Char :=
    if scheme ≠ [] ∧ netloc = [] then (some scheme, upath)
    else
      match partitionColon upath with
      | (pre, some suffix) =>
        let (pre2, tg) := pySplit pre
        (some tg, pyJoin2 pre2 suffix)
      | (_, none) => (none, upath)
  let tag := tagPath.1
  let path0 := tagPath.2
  let path1 := if tag = some SMIL_TAG_C then pyDirname path0 else path0
  let ext0 := (splitext path1).2
  let pathExt : List Char × List Char :=
    if ext0 = [] then
      match tag with
      | some t => (path1 ++ '.' :: t, '.' :: t)
      | none => (path1, ext0)
    else (path1, ext0)
  let path2 := pathExt.1
  let ext := pathExt.2
  let root0 := pyDirname path2
  let rootPath := if ext ≠ SMIL_EXT_C then pyDirname (pyDirname (pyDirname root0))
    else root0
  (pyRelpath cwd path2 rootPath).map normpath

/-- `PublishServiceExport.__get_dst_path(rel_path)`: descriptor files keep
their full relative path; every other file keeps only the last two path
levels (element id and filename). -/
def getDstPath (cwd relPath : List Char) : Except Exc (List Char) :=
  let ext := (splitext relPath).2
  if ext = SMIL_EXT_C then .ok relPath
  else
    let reduced := pyDirname (pyDirname relPath)
    pyRelpath cwd relPath reduced

/-- String-level `os.path.dirname`. -/
def pyDirnameS (s : String) : String := ⟨pyDirname s.toList⟩

/-- String-level `os.path.basename`. -/
def pyBasenameS (s : String) : String := ⟨pyBasename s.toList⟩

/-- Whether a clean path names a SMIL descriptor
(`os.path.splitext(clean_path)[1] == SMIL_EXT`). -/
def isSmilPathS (s : String) : Bool :=
  (splitext s.toList).2 = SMIL_EXT_C

/-! ## The mediapackage data model -/

/-- A mediapackage element (track/attachment/catalog): the data the export
code reads and writes.  `mimetype` is the optional `mimetype` child element,
whose text may itself be empty (`mimetypes.guess_type` can return `None`);
`tags` is the optional `tags` child with the texts of its `tag` children. -/
structure Element where
  tag : String
  id : String
  flavor : Option String
  transport : Option String
  mimetype : Option (Option String)
  tags : Option (List String)
  url : String
deriving DecidableEq

/-- A mediapackage XML tree: its `id` attribute, whether it has `media` and
`publications` category children, and its elements (the parents of `url`
nodes) in document order. -/
structure MP where
  mpId : Option String
  hasMedia : Bool
  publications : Bool
  elements : List Element
deriving DecidableEq

/-- A `<video>` rendition reference inside a SMIL descriptor, with its
`video-bitrate` attribute (already an integer, as Python's `int(...)`
produces) and its `src` attribute. -/
structure SmilVideo where
  bitrate : Int
  src : String
deriving DecidableEq

/-- The mutable state of a `ServiceExport` object: `_mp`, `_paths`
(destination → source), `_exported` (destination → exporting element,
modelled by the element's `id` attribute), and the fields of
`PublishServiceExport` (`__elements_from_smil`, `__quality_tags`). -/
structure SEState where
  mp : Option MP
  paths : List (String × String)
  exported : List (String × String)
  elementsFromSmil : List Element
  qualityTags : List String
deriving DecidableEq

/-- `ServiceExport.reset`. -/
def seReset : SEState :=
  { mp := none, paths := [], exported := [], elementsFromSmil := [],
    qualityTags := [] }

/-- `ServiceExport.export_element(url)` with the abstract `_get_paths`
passed as `gp`.  Returns the state, the element as left behind, and the
exception if one was raised; a raise happens before any mutation, so state
and element are returned unchanged in that case. -/
def exportElement (gp : String → Except Exc (String × String))
    (st : SEState) (e : Element) : SEState × Element × Option Exc :=
  match gp e.url with
  | .error ex => (st, e, some ex)
  | .ok sd =>
    if (dlookup st.paths sd.2).isSome then
      (st, e, some .duplicateElement)
    else
      ({ st with paths := dictInsert st.paths sd.2 sd.1,
                 exported := dictInsert st.exported sd.2 e.id },
       { e with url := sd.2 }, none)

/-- `XML_TRACK_TAG` (namespace elided). -/
def trackTag : String := "track"

/-- Python `tag in some_list` for an optional attribute value (`None` is
never contained in a list of strings). -/
def optMem (o : Option String) (l : List String) : Bool :=
  match o with
  | some s => l.contains s
  | none => false

/-- The per-element tag loop of `ServiceExport.export`: visit each `tag`
child in order (lxml iterators prefetch, so removing the current child skips
nothing); a tag in `filter_by_tag` removes the whole element (`break`); a
tag in `filter_tags` is stripped.  Returns whether the element was removed
and the tag list as mutated up to that point. -/
def processTags (ft fs : List String) : List String → Bool × List String
  | [] => (false, [])
  | t :: ts =>
    if !ft.isEmpty && ft.contains t then (true, t :: ts)
    else if !fs.isEmpty && fs.contains t then processTags ft fs ts
    else
      let (r, ts') := processTags ft fs ts
      (r, t :: ts')

/-- The template preparation of `PublishServiceExport.__export_from_smil`
(lines 614–630): retag the descriptor element as a track, delete the
`transport` attribute and delete its existing quality tags. -/
def prepTemplate (qt : List String) (e : Element) : Element :=
  { e with
    tag := trackTag
    transport := none
    tags := e.tags.map (fun ts => ts.filter (fun t => !(qt.contains t))) }

/-- Stable insertion of `x` in front of the first element `y` with
`le x y`. -/
def stableInsert {α : Type} (le : α → α → Bool) (x : α) : List α → List α
  | [] => [x]
  | y :: ys => if le x y then x :: y :: ys else y :: stableInsert le x ys

/-- Stable insertion sort.  Python's `sorted` is a stable sort, and a stable
sort with respect to a total preorder has a unique result, so this models
`sorted` exactly. -/
def stableSort {α : Type} (le : α → α → Bool) : List α → List α
  | [] => []
  | x :: xs => stableInsert le x (stableSort le xs)

/-- Python's stable descending-bitrate sort
`sorted(videos, key=bitrate, reverse=True)` (equal keys keep their file
order). -/
def sortVideos (videos : List SmilVideo) : List SmilVideo :=
  stableSort (fun a b => decide (b.bitrate ≤ a.bitrate)) videos

/-- The post-export adjustment of one synthesized track in
`PublishServiceExport.__export_from_smil` (lines 663–689): derive the new
element id from the destination's parent directory name, adjust the
mimetype if a `mimetype` child is present, make sure a `tags` child exists,
and append the quality tag at position `tagIdx` when the quality-tag list
is non-empty. -/
def smilNewElem (guessType : String → Option String) (qt : List String)
    (tagIdx : Nat) (e' : Element) : Element :=
  let e2 := { e' with id := pyBasenameS (pyDirnameS e'.url) }
  let e3 := match e2.mimetype with
    | some _ => { e2 with mimetype := some (guessType e2.url) }
    | none => e2
  let tagsList := e3.tags.getD []
  if !qt.isEmpty then { e3 with tags := some (tagsList ++ [qt.getD tagIdx ""]) }
  else { e3 with tags := some tagsList }

/-- The rendition loop of `PublishServiceExport.__export_from_smil`:
clone the prepared template for each video of the (already sorted) list,
export it through `ServiceExport.export_element`, apply `smilNewElem` and
collect the result (advancing `tagIdx` only when the quality-tag list is
non-empty, mirroring the `tag_index += 1` inside the `if` block); a
`DuplicateElementException` skips the video; any other exception
propagates.  When the quality-tag list is non-empty the loop stops once
`tagIdx` reaches its length. -/
def smilLoop (gp : String → Except Exc (String × String))
    (guessType : String → Option String) (qt : List String) (tmpl : Element) :
    List SmilVideo → Nat → SEState → SEState × Option Exc
  | [], _, st => (st, none)
  | v :: vs, tagIdx, st =>
    if !qt.isEmpty && decide (qt.length ≤ tagIdx) then (st, none)
    else
      let r := exportElement gp st { tmpl with url := v.src }
      match r.2.2 with
      | none =>
        smilLoop gp guessType qt tmpl vs
          (if !qt.isEmpty then tagIdx + 1 else tagIdx)
          { r.1 with elementsFromSmil :=
              r.1.elementsFromSmil ++ [smilNewElem guessType qt tagIdx r.2.1] }
      | some .duplicateElement => smilLoop gp guessType qt tmpl vs tagIdx r.1
      | some ex => (r.1, some ex)

/-- `PublishServiceExport.__export_from_smil(smil_element, smil_path)`,
taking the parsed `<video>` list of the descriptor file as `videos`. -/
def exportFromSmil (gp : String → Except Exc (String × String))
    (guessType : String → Option String) (st : SEState)
    (smilElement : Element) (videos : List SmilVideo) :
    SEState × Option Exc :=
  smilLoop gp guessType st.qualityTags (prepTemplate st.qualityTags smilElement)
    (sortVideos videos) 0 st

/-- Which `export_element` override runs: the abstract base class
(`ServiceExport`), `ArchiveServiceExport`, or `PublishServiceExport`. -/
inductive Variant where
  | base
  | arch
  | pub
deriving DecidableEq

/-- The environment of a service: its backend query and the filesystem
functions its path resolution reads.  `fetch` abstracts the HTTP id query
(`_get_unique_mp`'s request), `gp` is the service's `_get_paths`, `clean`
its `_get_clean_path`, `srcPath` its `__get_src_path`, `readSmil` the
open/parse of a descriptor file, `guessType` is `mimetypes.guess_type`. -/
structure Params where
  fetch : String → List MP
  gp : String → Except Exc (String × String)
  clean : String → Except Exc String
  srcPath : String → Except Exc String
  readSmil : String → Except Exc (List SmilVideo)
  guessType : String → Option String

/-- One element-export step of the export loop, per variant.
Returns the state, the element as left in the tree (`none` = removed), and
the propagated exception, if any.
`base` is `ServiceExport.export_element` (raises propagate);
`arch` is `ArchiveServiceExport.export_element` (a duplicate is removed and
ignored); `pub` is `PublishServiceExport.export_element` (duplicates are
removed; a successfully exported `.smil` descriptor is flattened via
`__export_from_smil` and then removed). -/
def exportStep (v : Variant) (P : Params) (st : SEState) (e : Element) :
    SEState × Option Element × Option Exc :=
  match v with
  | .base =>
    let r := exportElement P.gp st e
    (r.1, some r.2.1, r.2.2)
  | .arch =>
    let r := exportElement P.gp st e
    match r.2.2 with
    | some .duplicateElement => (st, none, none)
    | _ => (r.1, some r.2.1, r.2.2)
  | .pub =>
    match P.clean e.url with
    | .error ex => (st, some e, some ex)
    | .ok cleanPath =>
      let r := exportElement P.gp st e
      match r.2.2 with
      | some .duplicateElement => (st, none, none)
      | some ex => (r.1, some r.2.1, some ex)
      | none =>
        if isSmilPathS cleanPath then
          match P.srcPath cleanPath with
          | .error ex => (r.1, some r.2.1, some ex)
          | .ok sp =>
            match P.readSmil sp with
            | .error ex => (r.1, some r.2.1, some ex)
            | .ok videos =>
              let rs := exportFromSmil P.gp P.guessType r.1 r.2.1 videos
              match rs.2 with
              | none => (rs.1, none, none)
              | some ex =>
                (rs.1, some (prepTemplate r.1.qualityTags r.2.1), some ex)
        else (r.1, some r.2.1, none)

/-- The `for url in self._mp.iter(XML_URL_TAG)` loop of
`ServiceExport.export` (lines 195–226): flavor filter, tag filter/strip,
then the per-variant element export.  Returns the state, the surviving
elements in order, and the first propagated exception (elements after it
are left untouched, as in Python). -/
def exportLoop (v : Variant) (P : Params) (ff ft fs : List String)
    (st : SEState) : List Element → SEState × List Element × Option Exc
  | [] => (st, [], none)
  | e :: rest =>
    if !ff.isEmpty && optMem e.flavor ff then
      exportLoop v P ff ft fs st rest
    else
      let re : Bool × Element :=
        if !ft.isEmpty || !fs.isEmpty then
          match e.tags with
          | some ts =>
            let rt := processTags ft fs ts
            (rt.1, { e with tags := some rt.2 })
          | none => (false, e)
        else (false, e)
      if re.1 then exportLoop v P ff ft fs st rest
      else
        let rs := exportStep v P st re.2
        match rs.2.2 with
        | some ex => (rs.1, rs.2.1.toList ++ rest, some ex)
        | none =>
          let rr := exportLoop v P ff ft fs rs.1 rest
          (rr.1, rs.2.1.toList ++ rr.2.1, rr.2.2)

/-- `PublishServiceExport.is_quality_tag`:
`tag.endswith(QUALITY_TAG_SUFFIX)` with `QUALITY_TAG_SUFFIX = '-quality'`. -/
def isQualityTag (t : String) : Bool :=
  let suf := ['-', 'q', 'u', 'a', 'l', 'i', 't', 'y']
  let cs := t.toList
  decide (suf.length ≤ cs.length) && decide (cs.drop (cs.length - suf.length) = suf)

/-- `PublishServiceExport.__extract_quality_tags`: the set of quality tags
occurring in the mediapackage, sorted from higher to lower
(`sorted(tags, reverse=True)`). -/
def extractQualityTags (m : MP) : List String :=
  let tset := m.elements.foldl (fun acc e =>
    (e.tags.getD []).foldl (fun a t =>
      if isQualityTag t && !(a.contains t) then a ++ [t] else a) acc) []
  stableSort (fun a b => !(strLtB a.toList b.toList)) tset

/-- The body of `ServiceExport.export` once `self._mp` is set: delete the
`publications` child, run the element loop, and (for
`PublishServiceExport.export`) extend the `media` category with the
elements extracted from SMIL files — which raises `AttributeError` when the
tree has no `media` child (`self._mp.find(XML_MEDIA_TAG)` is `None`). -/
def runExport (v : Variant) (P : Params) (ff ft fs : List String)
    (st1 : SEState) : SEState × Option Exc :=
  match st1.mp with
  | none => (st1, none)
  | some m =>
    let m1 := { m with publications := false }
    let r := exportLoop v P ff ft fs { st1 with mp := some m1 } m1.elements
    match r.2.2 with
    | some ex => ({ r.1 with mp := some { m1 with elements := r.2.1 } }, some ex)
    | none =>
      match v with
      | .pub =>
        if m1.hasMedia then
          ({ r.1 with
             mp := some { m1 with elements := r.2.1 ++ r.1.elementsFromSmil } },
           none)
        else
          ({ r.1 with mp := some { m1 with elements := r.2.1 } },
           some .attributeError)
      | _ => ({ r.1 with mp := some { m1 with elements := r.2.1 } }, none)

/-- The argument of `ServiceExport.export`: a mediapackage id string, an
XML tree, or `None` (which is what `Export.export` passes to a secondary
when the primary has no mediapackage). -/
inductive MediapArg where
  | str (s : String)
  | tree (m : MP)
  | noneV
deriving DecidableEq

/-- `ServiceExport._get_unique_mp` on the list the backend returns for the
id query: exactly one match is required. -/
def getUniqueMp (fetch : String → List MP) (mpId : String) : Except Exc MP :=
  match fetch mpId with
  | [m] => .ok m
  | [] => .error .notFound
  | _ => .error .tooManyResults

/-- `ServiceExport.export(mediap, filter_by_flavor, filter_by_tag,
filter_tags)` (with the `PublishServiceExport` overrides selected by `v`):
reset; a string argument is resolved through `_get_unique_mp` (a
`MigrationException` is caught and leaves the service reset — `fetch`
models a completed HTTP query, so `_get_unique_mp` raises only
`MigrationException`s); `PublishServiceExport._get_unique_mp` additionally
extracts the quality tags; a non-string argument is assigned to `self._mp`
directly, so `None` raises `AttributeError` at the tag check. -/
def serviceExport (v : Variant) (P : Params) (arg : MediapArg)
    (ff ft fs : List String) : SEState × Option Exc :=
  match arg with
  | .str s =>
    match getUniqueMp P.fetch s with
    | .error _ => (seReset, none)
    | .ok m =>
      let qt := match v with
        | .pub => extractQualityTags m
        | _ => []
      runExport v P ff ft fs { seReset with mp := some m, qualityTags := qt }
  | .tree m => runExport v P ff ft fs { seReset with mp := some m }
  | .noneV => (seReset, some .attributeError)

/-! ## The merge coordinator (`Export`) -/

/-- A registered service: its class (variant) and environment. -/
structure Service where
  variant : Variant
  params : Params

/-- The coordinator's state: `self._mp` and `self._paths`. -/
structure CoordState where
  mp : Option MP
  paths : List (String × String)
deriving DecidableEq

/-- `Export._merge_mp`: append the children of the secondary's merge
categories to the primary tree.  (The per-category structure and the
silently-caught `AttributeError` on a missing destination category are not
modelled; no claim depends on them.) -/
def mergeMp (dst src : MP) : MP :=
  { dst with elements := dst.elements ++ src.elements }

/-- `Export._merge_paths`, also returning the destinations warned about:
keys of `toMerge` whose value conflicts with an existing entry form the
`intersect` set, a warning is logged for each, and only the non-conflicting
entries are applied with `dict.update`.  Never raises. -/
def mergePathsW (selfPaths toMerge : List (String × String)) :
    List (String × String) × List String :=
  let intersect := toMerge.filter (fun kv =>
    match dlookup selfPaths kv.1 with
    | some src0 => decide (kv.2 ≠ src0)
    | none => false)
  let warnings := intersect.map Prod.fst
  let updates := toMerge.filter (fun kv =>
    !(intersect.any (fun kv2 => kv2.1 == kv.1)))
  (dictUpdate selfPaths updates, warnings)

/-- The `for service in self._slaves` loop of `Export.export`: run each
secondary against the primary's resolved mediapackage id, and merge tree
and paths when it produced a mediapackage.  An exception from a secondary
propagates with the coordinator state as already built. -/
def mergeSlaves (arg2 : MediapArg) (ff ft fs : List String) (c : CoordState) :
    List Service → CoordState × Option Exc
  | [] => (c, none)
  | s :: rest =>
    let r := serviceExport s.variant s.params arg2 ff ft fs
    match r.2 with
    | some ex => (c, some ex)
    | none =>
      match r.1.mp with
      | none => mergeSlaves arg2 ff ft fs c rest
      | some m =>
        match c.mp with
        | none =>
          mergeSlaves arg2 ff ft fs
            { mp := some m, paths := dictUpdate c.paths r.1.paths } rest
        | some cm =>
          mergeSlaves arg2 ff ft fs
            { mp := some (mergeMp cm m),
              paths := (mergePathsW c.paths r.1.paths).1 } rest

/-- `Export.export(mediap, filters...)`: reset the coordinator state, run
the primary, take over its mediapackage and paths, then run each secondary
against `self._main.mediapackage_id` (which is `None` — modelled by
`MediapArg.noneV` — when the primary has no mediapackage or it lacks an
`id`).  An exception from the primary propagates with the freshly reset
coordinator state. -/
def coordExport (main : Service) (slaves : List Service) (arg : MediapArg)
    (ff ft fs : List String) : CoordState × Option Exc :=
  let r := serviceExport main.variant main.params arg ff ft fs
  match r.2 with
  | some ex => ({ mp := none, paths := [] }, some ex)
  | none =>
    let c : CoordState := { mp := r.1.mp, paths := dictUpdate [] r.1.paths }
    let arg2 : MediapArg :=
      match r.1.mp with
      | some m =>
        match m.mpId with
        | some i => .str i
        | none => .noneV
      | none => .noneV
    mergeSlaves arg2 ff ft fs c slaves

/-! ## Reference (spec-side) description of the filtering pass, for C8 -/

/-- Spec-side keep predicate: an element survives the filtering pass iff its
flavor is not in the flavor filter and none of its tags is in the tag
filter. -/
def specKeep (ff ft : List String) (e : Element) : Bool :=
  !(optMem e.flavor ff) && !((e.tags.getD []).any (fun t => ft.contains t))

/-- Spec-side strip: remove every tag listed in `filter_tags`. -/
def specStrip (fs : List String) (e : Element) : Element :=
  { e with tags := e.tags.map (fun ts => ts.filter (fun t => !(fs.contains t))) }

/-- Spec-side description of the whole filtering pass. -/
def specFilterElems (ff ft fs : List String) (es : List Element) :
    List Element :=
  (es.filter (specKeep ff ft)).map (specStrip fs)

/-- An element with its `url` blanked: the projection the filtering pass
leaves untouched (the copying pass rewrites only `url`). -/
def projNoUrl (e : Element) : Element :=
  { e with url := "" }


/-! ## Claim C7: spec-side path vocabulary -/

/-- Spec-side join of path segments with `'/'` (used to state which URLs
claim C7 quantifies over and what "the last two segments" means). -/
def specJoinSegs : List (List Char) → List Char
  | [] => []
  | [a] => a
  | a :: rest => a ++ '/' :: specJoinSegs rest

/-- Spec-side sanity of a path segment: non-empty, no separator, no colon
(no stream-format tag), and not one of the special `.`/`..` components. -/
def cleanSeg (s : List Char) : Prop :=
  s ≠ [] ∧ '/' ∉ s ∧ ':' ∉ s ∧ s ≠ ['.'] ∧ s ≠ ['.', '.']

/-! ## Dictionary lemmas -/

theorem dlookup_isSome_iff {β : Type} (d : List (String × β)) (k : String) :
    (dlookup d k).isSome ↔ k ∈ keysOf d := by
  induction d with
  | nil => simp [dlookup, keysOf]
  | cons p t ih =>
    obtain ⟨k', v⟩ := p
    by_cases h : k' = k
    · subst h; simp [dlookup, keysOf]
    · have hstep : dlookup ((k', v) :: t) k = dlookup t k := by
        simp [dlookup, h]
      rw [hstep, ih]
      show _ ↔ k ∈ k' :: keysOf t
      rw [List.mem_cons]
      constructor
      · exact Or.inr
      · rintro (hc | hm)
        · exact absurd hc.symm h
        · exact hm

theorem dlookup_append {β : Type} (d e : List (String × β)) (k : String) :
    dlookup (d ++ e) k =
      if (dlookup d k).isSome then dlookup d k else dlookup e k := by
  induction d with
  | nil => simp [dlookup]
  | cons p t ih =>
    obtain ⟨k0, v0⟩ := p
    by_cases hk : k0 = k <;> simp [dlookup, hk, ih]

theorem dlookup_replace_self {β : Type} (t : List (String × β)) (k : String)
    (v : β) (h : (dlookup t k).isSome) :
    dlookup (t.map (fun p => if p.1 = k then (k, v) else p)) k = some v := by
  induction t with
  | nil => simp [dlookup] at h
  | cons p t ih =>
    obtain ⟨k0, v0⟩ := p
    rw [List.map_cons]
    by_cases hk : k0 = k
    · subst hk
      rw [if_pos (show (k0, v0).1 = k0 from rfl)]
      simp [dlookup]
    · have h' : (dlookup t k).isSome := by simpa [dlookup, hk] using h
      rw [if_neg (show ¬ (k0, v0).1 = k from hk)]
      simp [dlookup, hk, ih h']

theorem dlookup_replace_ne {β : Type} (t : List (String × β)) (k k' : String)
    (v : β) (hne : k' ≠ k) :
    dlookup (t.map (fun p => if p.1 = k then (k, v) else p)) k' =
      dlookup t k' := by
  induction t with
  | nil => rfl
  | cons p t ih =>
    obtain ⟨k0, v0⟩ := p
    rw [List.map_cons]
    by_cases hk : k0 = k
    · subst hk
      have hk0 : k0 ≠ k' := fun hc => hne (hc ▸ rfl)
      rw [if_pos (show (k0, v0).1 = k0 from rfl)]
      simp [dlookup, hk0, ih]
    · rw [if_neg (show ¬ (k0, v0).1 = k from hk)]
      simp [dlookup, ih]

theorem keysOf_replace {β : Type} (d : List (String × β)) (k : String)
    (v : β) :
    keysOf (d.map (fun p => if p.1 = k then (k, v) else p)) = keysOf d := by
  induction d with
  | nil => rfl
  | cons p t ih =>
    obtain ⟨k0, v0⟩ := p
    rw [List.map_cons]
    by_cases hk : k0 = k
    · subst hk
      rw [if_pos (show (k0, v0).1 = k0 from rfl)]
      show k0 :: keysOf _ = k0 :: keysOf t
      rw [ih]
    · rw [if_neg (show ¬ (k0, v0).1 = k from hk)]
      show k0 :: keysOf _ = k0 :: keysOf t
      rw [ih]

theorem keysOf_dictInsert {β : Type} (d : List (String × β)) (k : String)
    (v : β) :
    keysOf (dictInsert d k v) =
      if (dlookup d k).isSome then keysOf d else keysOf d ++ [k] := by
  unfold dictInsert
  by_cases h : (dlookup d k).isSome
  · simp [h, keysOf_replace]
  · simp [h, keysOf]

theorem dlookup_dictInsert_self {β : Type} (d : List (String × β))
    (k : String) (v : β) : dlookup (dictInsert d k v) k = some v := by
  unfold dictInsert
  by_cases h : (dlookup d k).isSome
  · simpa [h] using dlookup_replace_self d k v h
  · have hnone : dlookup d k = none := by
      cases hd : dlookup d k
      · rfl
      · simp [hd] at h
    simp [h, dlookup_append, hnone, dlookup]

theorem dlookup_dictInsert_ne {β : Type} (d : List (String × β))
    (k k' : String) (v : β) (hne : k' ≠ k) :
    dlookup (dictInsert d k v) k' = dlookup d k' := by
  unfold dictInsert
  by_cases h : (dlookup d k).isSome
  · simpa [h] using dlookup_replace_ne d k k' v hne
  · have hk : k ≠ k' := fun hc => hne (hc ▸ rfl)
    by_cases h' : (dlookup d k').isSome
    · simp [h, dlookup_append, h']
    · have hnone : dlookup d k' = none := by
        cases hd : dlookup d k'
        · rfl
        · simp [hd] at h'
      simp [h, dlookup_append, hnone, dlookup, hk]

theorem dlookup_dictInsert_isSome {β : Type} (d : List (String × β))
    (k k' : String) (v : β) (h : (dlookup d k').isSome) :
    (dlookup (dictInsert d k v) k').isSome := by
  by_cases hne : k' = k
  · subst hne; simp [dlookup_dictInsert_self]
  · rw [dlookup_dictInsert_ne d k k' v hne]; exact h

/-! ## Claim C2 — duplicate detection in `ServiceExport.export_element` -/

/-- Claim C2, counterexample: re-registering a destination that is already
registered with the *same* source path is claimed to be an idempotent no-op,
but `ServiceExport.export_element` raises `DuplicateElementException` for
any already-registered destination: here `_get_paths` resolves the element
to `(source "s", destination "d")` and the path map already maps `"d"` to
the very same `"s"`, yet the call raises. -/
theorem c2_counterexample :
    dlookup [("d", "s")] "d" = some "s" ∧
    (exportElement (fun _ => .ok ("s", "d"))
      { mp := none, paths := [("d", "s")], exported := [("d", "e0")],
        elementsFromSmil := [], qualityTags := [] }
      { tag := "track", id := "e1", flavor := none, transport := none,
        mimetype := none, tags := none, url := "u" }).2.2 =
      some .duplicateElement := by
  decide

/-- Claim C2 as amended: when `_get_paths` resolves the element's URL,
`ServiceExport.export_element` raises `DuplicateElementException` if and
only if the resolved destination path was already registered in the same
export pass — by any element, even one that registered it with the same
source path (same-source re-registration raises too; it is not a no-op). -/
theorem c2_dup_iff_registered (gp : String → Except Exc (String × String))
    (st : SEState) (e : Element) (src dst : String)
    (h : gp e.url = .ok (src, dst)) :
    (exportElement gp st e).2.2 = some .duplicateElement ↔
      (dlookup st.paths dst).isSome := by
  by_cases hd : (dlookup st.paths dst).isSome <;>
    simp [exportElement, h, hd]

/-- Witness for `c2_dup_iff_registered` at a concrete input. -/
theorem c2_dup_iff_registered_witness :
    (exportElement (fun _ => .ok ("s", "d")) seReset
      { tag := "track", id := "e1", flavor := none, transport := none,
        mimetype := none, tags := none, url := "u" }).2.2 =
        some .duplicateElement ↔
      (dlookup seReset.paths "d").isSome :=
  c2_dup_iff_registered (fun _ => .ok ("s", "d")) seReset
    { tag := "track", id := "e1", flavor := none, transport := none,
      mimetype := none, tags := none, url := "u" } "s" "d" rfl

/-! ## Claim C9 — the two maps move in lockstep -/

/-- Claim C9: `_paths` and `_exported` always have the same key set:
`export_element` either registers the same destination key in both maps and
rewrites the URL text, or raises leaving state and element untouched
(`DuplicateElementException` when the destination is taken, the resolver's
exception when resolution fails), and `reset` empties both maps together. -/
theorem c9_maps_in_lockstep (gp : String → Except Exc (String × String))
    (st : SEState) (e : Element)
    (hkeys : keysOf st.paths = keysOf st.exported) :
    keysOf (exportElement gp st e).1.paths =
      keysOf (exportElement gp st e).1.exported ∧
    (∀ src dst, gp e.url = .ok (src, dst) →
      ((dlookup st.paths dst).isSome →
        exportElement gp st e = (st, e, some .duplicateElement)) ∧
      (¬ (dlookup st.paths dst).isSome →
        exportElement gp st e =
          ({ st with paths := dictInsert st.paths dst src,
                     exported := dictInsert st.exported dst e.id },
           { e with url := dst }, none))) ∧
    (∀ ex, gp e.url = .error ex → exportElement gp st e = (st, e, some ex)) ∧
    seReset.paths = [] ∧ seReset.exported = [] := by
  refine ⟨?_, ?_, ?_, rfl, rfl⟩
  · match hgp : gp e.url with
    | .error ex => simp [exportElement, hgp, hkeys]
    | .ok sd =>
      by_cases hd : (dlookup st.paths sd.2).isSome
      · simp [exportElement, hgp, hd, hkeys]
      · have hd' : ¬ (dlookup st.exported sd.2).isSome := by
          rw [dlookup_isSome_iff] at hd ⊢
          rw [← hkeys]; exact hd
        simp [exportElement, hgp, hd, keysOf_dictInsert, hd', hkeys]
  · intro src dst hgp
    refine ⟨fun hd => ?_, fun hd => ?_⟩ <;> simp [exportElement, hgp, hd]
  · intro ex hgp
    simp [exportElement, hgp]

/-- Witness for `c9_maps_in_lockstep` at a concrete input. -/
theorem c9_maps_in_lockstep_witness :
    keysOf (exportElement (fun u => .ok (u, "dst")) seReset
      { tag := "track", id := "e1", flavor := none, transport := none,
        mimetype := none, tags := none, url := "u" }).1.paths =
    keysOf (exportElement (fun u => .ok (u, "dst")) seReset
      { tag := "track", id := "e1", flavor := none, transport := none,
        mimetype := none, tags := none, url := "u" }).1.exported :=
  (c9_maps_in_lockstep (fun u => .ok (u, "dst")) seReset
    { tag := "track", id := "e1", flavor := none, transport := none,
      mimetype := none, tags := none, url := "u" } rfl).1

/-! ## Claim C5 — the re-run skip decision of the copy helpers -/

/-- Claim C5, counterexample: two regular files with equal stat signatures
(same size, same mtime) but different byte content.  The copy helpers skip
the copy (`filecmp.cmp` with its default `shallow=1` never reads the
contents when the signatures agree), although the destination's content
does not match the source byte for byte, which the claim says is required
for a skip. -/
theorem c5_counterexample :
    skipsCopy { ifmt := S_IFREG, mtime := 7, content := [0] }
      (some { ifmt := S_IFREG, mtime := 7, content := [1] }) = true ∧
    ({ ifmt := S_IFREG, mtime := 7, content := [0] } : PyFile).content ≠
      ({ ifmt := S_IFREG, mtime := 7, content := [1] } : PyFile).content := by
  decide

/-- Claim C5 as amended: a destination element is skipped (not re-copied)
exactly when the destination file exists, both files are regular, and
either their `(file type, size, mtime)` stat signatures coincide or their
contents match byte for byte — the decision is `filecmp.cmp`'s shallow
comparison, which consults the timestamp before falling back to content. -/
theorem c5_skip_iff (srcFile : PyFile) (dstFile : Option PyFile) :
    skipsCopy srcFile dstFile = true ↔
      ∃ d, dstFile = some d ∧ srcFile.ifmt = S_IFREG ∧ d.ifmt = S_IFREG ∧
        (fileSig srcFile = fileSig d ∨ srcFile.content = d.content) := by
  cases dstFile with
  | none => simp [skipsCopy]
  | some dd =>
    simp only [skipsCopy, Option.some.injEq]
    constructor
    · intro h
      refine ⟨dd, rfl, ?_⟩
      by_cases h1 : srcFile.ifmt = S_IFREG
      · by_cases h2 : dd.ifmt = S_IFREG
        · refine ⟨h1, h2, ?_⟩
          by_cases h3 : fileSig srcFile = fileSig dd
          · exact Or.inl h3
          · right
            by_cases hlen : srcFile.content.length = dd.content.length
            · simpa [filecmpCmp, h1, h2, h3, hlen] using h
            · simp [filecmpCmp, h1, h2, h3, hlen] at h
        · simp [filecmpCmp, h2] at h
      · simp [filecmpCmp, h1] at h
    · rintro ⟨d', rfl, h1, h2, h3⟩
      rcases h3 with h3 | h3
      · simp [filecmpCmp, h1, h2, h3]
      · have hlen : srcFile.content.length = dd.content.length := by rw [h3]
        by_cases hsig : fileSig srcFile = fileSig dd
        · simp [filecmpCmp, h1, h2, hsig]
        · simp [filecmpCmp, h1, h2, hsig, hlen, h3]

/-! ## More dictionary lemmas, for the merge coordinator -/

theorem mem_of_dlookup_eq_some {β : Type} {d : List (String × β)}
    {k : String} {v : β} (h : dlookup d k = some v) : (k, v) ∈ d := by
  induction d with
  | nil => simp [dlookup] at h
  | cons p t ih =>
    obtain ⟨k0, v0⟩ := p
    by_cases hk : k0 = k
    · subst hk
      have hv : v0 = v := by simpa [dlookup] using h
      subst hv
      exact List.mem_cons_self _ _
    · simp only [dlookup, hk, if_neg, ite_false] at h
      exact List.mem_cons_of_mem _ (ih h)

theorem dlookup_eq_some_of_mem {β : Type} {d : List (String × β)}
    {k : String} {v : β} (hnd : NodupKeys d) (hm : (k, v) ∈ d) :
    dlookup d k = some v := by
  induction d with
  | nil => simp at hm
  | cons p t ih =>
    obtain ⟨k0, v0⟩ := p
    have hnd' : NodupKeys t := by
      have := hnd
      simp only [NodupKeys, keysOf, List.map_cons, List.nodup_cons] at this
      exact this.2
    have hk0 : k0 ∉ keysOf t := by
      have := hnd
      simp only [NodupKeys, keysOf, List.map_cons, List.nodup_cons] at this
      exact this.1
    rcases List.mem_cons.mp hm with heq | hm'
    · cases heq
      simp [dlookup]
    · have hkne : k0 ≠ k := by
        intro hc
        subst hc
        exact hk0 (by
          simpa [keysOf] using List.mem_map_of_mem Prod.fst hm')
      simp only [dlookup, hkne, if_neg, ite_false]
      exact ih hnd' hm'

theorem nodupKeys_filter {β : Type} (d : List (String × β))
    (pr : String × β → Bool) (h : NodupKeys d) : NodupKeys (d.filter pr) := by
  unfold NodupKeys keysOf at h ⊢
  have hs : (d.filter pr).Sublist d := List.filter_sublist d
  exact List.Nodup.sublist (hs.map Prod.fst) h

theorem dlookup_dictUpdate {β : Type} (d e : List (String × β)) (k : String)
    (he : NodupKeys e) :
    dlookup (dictUpdate d e) k =
      if (dlookup e k).isSome then dlookup e k else dlookup d k := by
  induction e generalizing d with
  | nil => simp [dictUpdate, dlookup]
  | cons p t ih =>
    obtain ⟨k0, v0⟩ := p
    have ht : NodupKeys t := by
      have := he
      simp only [NodupKeys, keysOf, List.map_cons, List.nodup_cons] at this
      exact this.2
    have hk0 : k0 ∉ keysOf t := by
      have := he
      simp only [NodupKeys, keysOf, List.map_cons, List.nodup_cons] at this
      exact this.1
    have hstep : dictUpdate d ((k0, v0) :: t) = dictUpdate (dictInsert d k0 v0) t := rfl
    rw [hstep, ih _ ht]
    by_cases hk : k0 = k
    · subst hk
      have htk : dlookup t k0 = none := by
        cases hc : dlookup t k0
        · rfl
        · exact absurd ((dlookup_isSome_iff t k0).mp (by simp [hc])) hk0
      simp [dlookup, htk, dlookup_dictInsert_self]
    · simp [dlookup, hk, dlookup_dictInsert_ne d k0 k v0 (fun hc => hk hc.symm)]

/-! ## Claim C4 — `Export._merge_paths` conflict policy -/

/-- Claim C4: when a secondary's path map is merged into the combined map,
a destination key present in both with different sources keeps the
earlier-registered source and the conflict is warned about; a key of the
secondary that does not conflict (absent from the combined map, or mapped
to the same source) is added with the secondary's source; keys absent from
the secondary are untouched.  The merge is a total function — the Python
code wraps everything in a `try` that catches `AttributeError`/`TypeError`
and never raises. -/
theorem c4_merge_paths (p q : List (String × String)) (hq : NodupKeys q)
    (dst : String) :
    (∀ s1 s2, dlookup p dst = some s1 → dlookup q dst = some s2 → s1 ≠ s2 →
      dlookup (mergePathsW p q).1 dst = some s1 ∧ dst ∈ (mergePathsW p q).2) ∧
    (∀ s2, dlookup q dst = some s2 →
      (∀ s1, dlookup p dst = some s1 → s1 = s2) →
      dlookup (mergePathsW p q).1 dst = some s2) ∧
    (dlookup q dst = none →
      dlookup (mergePathsW p q).1 dst = dlookup p dst) := by
  have hval : ∀ {w}, (dst, w) ∈ q → dlookup q dst = some w := fun hm =>
    dlookup_eq_some_of_mem hq hm
  have hupd : NodupKeys (q.filter (fun kv =>
      !((q.filter (fun kv' =>
        match dlookup p kv'.1 with
        | some src0 => decide (kv'.2 ≠ src0)
        | none => false)).any (fun kv2 => kv2.1 == kv.1)))) :=
    nodupKeys_filter _ _ hq
  refine ⟨?_, ?_, ?_⟩
  · intro s1 s2 hp' hq' hne
    have hmem : (dst, s2) ∈ q := mem_of_dlookup_eq_some hq'
    have hint : (dst, s2) ∈ q.filter (fun kv =>
        match dlookup p kv.1 with
        | some src0 => decide (kv.2 ≠ src0)
        | none => false) := by
      refine List.mem_filter.mpr ⟨hmem, ?_⟩
      simp only [hp']
      exact decide_eq_true (fun hc => hne hc.symm)
    constructor
    · show dlookup (dictUpdate p _) dst = some s1
      rw [dlookup_dictUpdate _ _ _ hupd]
      have hnone : dlookup (q.filter (fun kv =>
          !((q.filter (fun kv' =>
            match dlookup p kv'.1 with
            | some src0 => decide (kv'.2 ≠ src0)
            | none => false)).any (fun kv2 => kv2.1 == kv.1)))) dst = none := by
        cases hc : dlookup (q.filter _) dst with
        | none => rfl
        | some w =>
          exfalso
          have hmw := mem_of_dlookup_eq_some hc
          have hin := List.mem_filter.mp hmw
          have : ¬ ((q.filter (fun kv' =>
              match dlookup p kv'.1 with
              | some src0 => decide (kv'.2 ≠ src0)
              | none => false)).any (fun kv2 => kv2.1 == dst)) := by
            simpa using hin.2
          exact this (List.any_eq_true.mpr ⟨(dst, s2), hint, by simp⟩)
      rw [hnone]
      simp [hp']
    · show dst ∈ (q.filter _).map Prod.fst
      exact List.mem_map_of_mem Prod.fst hint
  · intro s2 hq' hagree
    have hmem : (dst, s2) ∈ q := mem_of_dlookup_eq_some hq'
    have hnotint : ∀ w, (dst, w) ∈ q.filter (fun kv =>
        match dlookup p kv.1 with
        | some src0 => decide (kv.2 ≠ src0)
        | none => false) → False := by
      intro w hw
      have hin := List.mem_filter.mp hw
      have hw2 : w = s2 := by
        have := hval hin.1
        rw [hq'] at this
        exact (Option.some.injEq _ _ ▸ this.symm :)
      subst hw2
      revert hin
      cases hp' : dlookup p dst with
      | none => simp [hp']
      | some s1 =>
        intro hin
        have := of_decide_eq_true (by simpa [hp'] using hin.2)
        exact this (hagree s1 hp').symm
    have hupdmem : (dst, s2) ∈ q.filter (fun kv =>
        !((q.filter (fun kv' =>
          match dlookup p kv'.1 with
          | some src0 => decide (kv'.2 ≠ src0)
          | none => false)).any (fun kv2 => kv2.1 == kv.1))) := by
      refine List.mem_filter.mpr ⟨hmem, ?_⟩
      simp only [Bool.not_eq_true']
      refine List.any_eq_false.mpr ?_
      rintro ⟨kd, kw⟩ hkm
      simp only [beq_iff_eq]
      intro hc
      have : kd = dst := by simpa using hc
      subst this
      exact absurd hkm (hnotint kw)
    show dlookup (dictUpdate p _) dst = some s2
    rw [dlookup_dictUpdate _ _ _ hupd]
    rw [dlookup_eq_some_of_mem hupd hupdmem]
    simp
  · intro hnone
    show dlookup (dictUpdate p _) dst = dlookup p dst
    rw [dlookup_dictUpdate _ _ _ hupd]
    have : dlookup (q.filter (fun kv =>
        !((q.filter (fun kv' =>
          match dlookup p kv'.1 with
          | some src0 => decide (kv'.2 ≠ src0)
          | none => false)).any (fun kv2 => kv2.1 == kv.1)))) dst = none := by
      cases hc : dlookup (q.filter _) dst with
      | none => rfl
      | some w =>
        exfalso
        have hmw := mem_of_dlookup_eq_some hc
        have hin := (List.mem_filter.mp hmw).1
        have := hval hin
        rw [hnone] at this
        exact Option.noConfusion this
    rw [this]
    simp

/-- Witness for `c4_merge_paths` at a concrete input. -/
theorem c4_merge_paths_witness :
    dlookup (mergePathsW [("d1", "s1"), ("d2", "s2")]
      [("d1", "sX"), ("d2", "s2"), ("d3", "s3")]).1 "d1" = some "s1" ∧
    "d1" ∈ (mergePathsW [("d1", "s1"), ("d2", "s2")]
      [("d1", "sX"), ("d2", "s2"), ("d3", "s3")]).2 :=
  (c4_merge_paths [("d1", "s1"), ("d2", "s2")]
    [("d1", "sX"), ("d2", "s2"), ("d3", "s3")]
    (by unfold NodupKeys keysOf; decide) "d1").1
    "s1" "sX" rfl rfl (by decide)

/-! ## Claim C1 — an absent primary mediapackage empties the merge -/

/-- When the secondaries are driven with argument `None` (as happens when
the primary has no mediapackage), the first secondary's `export` raises
`AttributeError` before it produces anything, so the coordinator state is
returned unchanged. -/
theorem mergeSlaves_noneV (ff ft fs : List String) (c : CoordState)
    (slaves : List Service) :
    (mergeSlaves .noneV ff ft fs c slaves).1 = c := by
  cases slaves with
  | nil => rfl
  | cons s rest => rfl

/-- Claim C1: when `Export.export` is run for a mediapackage id for which
the primary exporter finds no (unique) mediapackage, the coordinator's
merged result is empty — `self._mp` is `None` and `self._paths` is empty —
no matter what the secondary exporters would produce: they are invoked with
`self._main.mediapackage_id`, which is `None`, and never contribute. -/
theorem c1_primary_empty (main : Service) (slaves : List Service)
    (ff ft fs : List String) (mid : String)
    (h : (main.params.fetch mid).length ≠ 1) :
    (coordExport main slaves (.str mid) ff ft fs).1 =
      { mp := none, paths := [] } := by
  have herr : ∃ ex, getUniqueMp main.params.fetch mid = .error ex := by
    unfold getUniqueMp
    match hf : main.params.fetch mid with
    | [] => exact ⟨.notFound, rfl⟩
    | [m] => exact absurd (by simp [hf]) h
    | m1 :: m2 :: rest => exact ⟨.tooManyResults, rfl⟩
  obtain ⟨ex, hex⟩ := herr
  have hmain : serviceExport main.variant main.params (.str mid) ff ft fs =
      (seReset, none) := by
    simp [serviceExport, hex]
  unfold coordExport
  rw [hmain]
  exact mergeSlaves_noneV ff ft fs _ slaves

/-- Witness for `c1_primary_empty` at a concrete input: a primary whose
backend returns no match for the id, plus one registered secondary. -/
theorem c1_primary_empty_witness :
    (coordExport
      { variant := .base,
        params :=
          { fetch := fun _ => [], gp := fun u => .ok (u, u),
            clean := fun u => .ok u, srcPath := fun u => .ok u,
            readSmil := fun _ => .ok [], guessType := fun _ => none } }
      [{ variant := .pub,
         params :=
          { fetch := fun _ => [], gp := fun u => .ok (u, u),
            clean := fun u => .ok u, srcPath := fun u => .ok u,
            readSmil := fun _ => .ok [], guessType := fun _ => none } }]
      (.str "mp-id") [] [] []).1 = { mp := none, paths := [] } :=
  c1_primary_empty _ _ [] [] [] "mp-id" (by decide)

/-! ## Claim C8 — the filtering pass of `ServiceExport.export` -/

theorem optMem_nil (o : Option String) : optMem o [] = false := by
  cases o <;> rfl

theorem guard_optMem (ff : List String) (o : Option String) :
    (!ff.isEmpty && optMem o ff) = optMem o ff := by
  cases ff with
  | nil => simp [optMem_nil]
  | cons a l => simp

theorem contains_nonempty {l : List String} {t : String}
    (h : l.contains t = true) : (!l.isEmpty) = true := by
  cases l with
  | nil => simp [List.contains] at h
  | cons a l' => simp

theorem any_contains_nil (ts : List String) :
    (ts.any fun t => (([] : List String).contains t)) = false := by
  simp

theorem filter_contains_nil (ts : List String) :
    (ts.filter fun t => !(([] : List String).contains t)) = ts := by
  simp

theorem processTags_fst (ft fs : List String) (ts : List String) :
    (processTags ft fs ts).1 = ts.any (fun t => ft.contains t) := by
  induction ts with
  | nil => rfl
  | cons t ts ih =>
    by_cases hft : t ∈ ft
    · have hne : ft ≠ [] := by rintro rfl; simp at hft
      simp [processTags, hft, hne]
    · by_cases hfs : t ∈ fs
      · have hne : fs ≠ [] := by rintro rfl; simp at hfs
        simp [processTags, hft, hfs, hne, ih]
      · simp [processTags, hft, hfs, ih]

theorem processTags_snd (ft fs : List String) (ts : List String)
    (h : (ts.any fun t => ft.contains t) = false) :
    (processTags ft fs ts).2 = ts.filter (fun t => !(fs.contains t)) := by
  induction ts with
  | nil => rfl
  | cons t ts ih =>
    have hht : t ∉ ft := by
      intro hc
      have := List.any_eq_false.mp h t (List.mem_cons_self t ts)
      simp [hc] at this
    have hrest : (ts.any fun t => ft.contains t) = false := by
      refine List.any_eq_false.mpr ?_
      intro x hx
      exact List.any_eq_false.mp h x (List.mem_cons_of_mem t hx)
    by_cases hfs : t ∈ fs
    · have hne : fs ≠ [] := by rintro rfl; simp at hfs
      simp [processTags, hht, hfs, hne, ih hrest]
    · simp [processTags, hht, hfs, ih hrest]

/-- `ServiceExport.export_element` (the base variant of the per-element
step) changes nothing but the `url`, and always leaves the element in the
tree. -/
theorem exportStep_base_shape (P : Params) (st : SEState) (e : Element) :
    ∃ st' e' exc, exportStep .base P st e = (st', some e', exc) ∧
      projNoUrl e' = projNoUrl e := by
  have hstep : exportStep .base P st e =
      ((exportElement P.gp st e).1, some (exportElement P.gp st e).2.1,
       (exportElement P.gp st e).2.2) := rfl
  cases hgp : P.gp e.url with
  | error ex =>
    refine ⟨st, e, some ex, ?_, rfl⟩
    rw [hstep]
    simp [exportElement, hgp]
  | ok sd =>
    by_cases hd : (dlookup st.paths sd.2).isSome
    · refine ⟨st, e, some .duplicateElement, ?_, rfl⟩
      rw [hstep]
      simp [exportElement, hgp, hd]
    · exact ⟨(exportElement P.gp st e).1, { e with url := sd.2 }, none,
        by rw [hstep]; simp [exportElement, hgp, hd], rfl⟩

theorem exportLoop_cons_flavor (v : Variant) (P : Params) (ff ft fs : List String)
    (st : SEState) (e : Element) (es : List Element)
    (hcond : (!ff.isEmpty && optMem e.flavor ff) = true) :
    exportLoop v P ff ft fs st (e :: es) =
      exportLoop v P ff ft fs st es := by
  simp only [exportLoop]
  rw [hcond]
  simp

theorem exportLoop_cons_tagdrop (v : Variant) (P : Params) (ff ft fs : List String)
    (st : SEState) (e : Element) (es : List Element)
    (hcond : (!ff.isEmpty && optMem e.flavor ff) = false)
    (hre : (if !ft.isEmpty || !fs.isEmpty then
        match e.tags with
        | some ts => ((processTags ft fs ts).1,
            { e with tags := some (processTags ft fs ts).2 })
        | none => (false, e)
      else (false, e)).1 = true) :
    exportLoop v P ff ft fs st (e :: es) =
      exportLoop v P ff ft fs st es := by
  simp only [exportLoop]
  rw [hcond, hre]
  simp

theorem exportLoop_cons_keep (v : Variant) (P : Params) (ff ft fs : List String)
    (st : SEState) (e e1 : Element) (es : List Element)
    (hcond : (!ff.isEmpty && optMem e.flavor ff) = false)
    (hre : (if !ft.isEmpty || !fs.isEmpty then
        match e.tags with
        | some ts => ((processTags ft fs ts).1,
            { e with tags := some (processTags ft fs ts).2 })
        | none => (false, e)
      else (false, e)) = (false, e1)) :
    exportLoop v P ff ft fs st (e :: es) =
      match (exportStep v P st e1).2.2 with
      | some ex => ((exportStep v P st e1).1,
          (exportStep v P st e1).2.1.toList ++ es, some ex)
      | none =>
        ((exportLoop v P ff ft fs (exportStep v P st e1).1 es).1,
         (exportStep v P st e1).2.1.toList ++
           (exportLoop v P ff ft fs (exportStep v P st e1).1 es).2.1,
         (exportLoop v P ff ft fs (exportStep v P st e1).1 es).2.2) := by
  simp only [exportLoop]
  rw [hre]
  rw [hcond]
  simp

theorem exportLoop_keep_tail (P : Params) (ff ft fs : List String)
    (st : SEState) (e e1 : Element) (es : List Element)
    (hcond : (!ff.isEmpty && optMem e.flavor ff) = false)
    (hre : (if !ft.isEmpty || !fs.isEmpty then
        match e.tags with
        | some ts => ((processTags ft fs ts).1,
            { e with tags := some (processTags ft fs ts).2 })
        | none => (false, e)
      else (false, e)) = (false, e1))
    (hkeep : specKeep ff ft e = true)
    (hproj1 : projNoUrl e1 = projNoUrl (specStrip fs e))
    (h : (exportLoop .base P ff ft fs st (e :: es)).2.2 = none)
    (ih : ∀ st', (exportLoop .base P ff ft fs st' es).2.2 = none →
      (exportLoop .base P ff ft fs st' es).2.1.map projNoUrl =
        (specFilterElems ff ft fs es).map projNoUrl) :
    (exportLoop .base P ff ft fs st (e :: es)).2.1.map projNoUrl =
      (specFilterElems ff ft fs (e :: es)).map projNoUrl := by
  obtain ⟨st', e', exc, hstep, hproj⟩ := exportStep_base_shape P st e1
  rw [exportLoop_cons_keep .base P ff ft fs st e e1 es hcond hre] at h ⊢
  rw [hstep] at h ⊢
  cases exc with
  | some ex => simp at h
  | none =>
    simp only [] at h ⊢
    have htail := ih st' h
    simp only [Option.toList_some, List.singleton_append, List.map_cons]
    rw [htail, hproj, hproj1]
    simp [specFilterElems, List.filter_cons, hkeep]

theorem exportLoop_base_elems (P : Params) (ff ft fs : List String)
    (st : SEState) (es : List Element)
    (h : (exportLoop .base P ff ft fs st es).2.2 = none) :
    (exportLoop .base P ff ft fs st es).2.1.map projNoUrl =
      (specFilterElems ff ft fs es).map projNoUrl := by
  induction es generalizing st with
  | nil => simp [exportLoop, specFilterElems]
  | cons e es ih =>
    by_cases hflav : optMem e.flavor ff = true
    · have hcond : (!ff.isEmpty && optMem e.flavor ff) = true := by
        rw [guard_optMem]; exact hflav
      have hkeep : specKeep ff ft e = false := by
        simp only [specKeep, hflav]
        simp
      rw [exportLoop_cons_flavor .base P ff ft fs st e es hcond] at h ⊢
      rw [ih st h]
      simp [specFilterElems, List.filter_cons, hkeep]
    · have hflav' : optMem e.flavor ff = false := by simpa using hflav
      have hcond : (!ff.isEmpty && optMem e.flavor ff) = false := by
        rw [guard_optMem]; exact hflav'
      by_cases hblock : (!ft.isEmpty || !fs.isEmpty) = true
      · cases htags : e.tags with
        | some ts =>
          by_cases hrm : (ts.any fun t => ft.contains t) = true
          · have hkeep : specKeep ff ft e = false := by
              simp only [specKeep, htags, Option.getD_some]
              rw [hrm]
              simp
            have hre : (if !ft.isEmpty || !fs.isEmpty then
                match e.tags with
                | some ts => ((processTags ft fs ts).1,
                    { e with tags := some (processTags ft fs ts).2 })
                | none => (false, e)
              else (false, e)).1 = true := by
              rw [hblock, htags, if_pos rfl]
              show (processTags ft fs ts).1 = true
              rw [processTags_fst]
              exact hrm
            rw [exportLoop_cons_tagdrop .base P ff ft fs st e es hcond hre] at h ⊢
            rw [ih st h]
            simp [specFilterElems, List.filter_cons, hkeep]
          · have hrm' : (ts.any fun t => ft.contains t) = false := by
              simpa using hrm
            have hkeep : specKeep ff ft e = true := by
              simp only [specKeep, htags, Option.getD_some]
              rw [hrm', hflav']
              simp
            have hre : (if !ft.isEmpty || !fs.isEmpty then
                match e.tags with
                | some ts => ((processTags ft fs ts).1,
                    { e with tags := some (processTags ft fs ts).2 })
                | none => (false, e)
              else (false, e)) = (false, specStrip fs e) := by
              rw [hblock, htags, if_pos rfl]
              show ((processTags ft fs ts).1,
                ({ e with tags := some (processTags ft fs ts).2 } : Element)) =
                (false, specStrip fs e)
              rw [show (processTags ft fs ts).1 = false from by
                rw [processTags_fst]; exact hrm']
              rw [processTags_snd ft fs ts hrm']
              simp [specStrip, htags]
            exact exportLoop_keep_tail P ff ft fs st e (specStrip fs e) es
              hcond hre hkeep rfl h ih
        | none =>
          have hkeep : specKeep ff ft e = true := by
            simp only [specKeep, htags, Option.getD_none]
            rw [hflav']
            simp
          have hstrip : specStrip fs e = e := by
            obtain ⟨a1, a2, a3, a4, a5, a6, a7⟩ := e
            subst htags
            simp [specStrip]
          have hre : (if !ft.isEmpty || !fs.isEmpty then
              match e.tags with
              | some ts => ((processTags ft fs ts).1,
                  { e with tags := some (processTags ft fs ts).2 })
              | none => (false, e)
            else (false, e)) = (false, e) := by
            rw [hblock, htags, if_pos rfl]
          exact exportLoop_keep_tail P ff ft fs st e e es hcond hre hkeep
            (by rw [hstrip]) h ih
      · have hblock' : (!ft.isEmpty || !fs.isEmpty) = false := by
          simpa using hblock
        have hft : ft = [] := by
          cases ft with
          | nil => rfl
          | cons a l => simp at hblock'
        have hfs : fs = [] := by
          cases fs with
          | nil => rfl
          | cons a l => simp at hblock'
        subst hft hfs
        have hkeep : specKeep ff [] e = true := by
          simp only [specKeep]
          rw [hflav', any_contains_nil]
          simp
        have hstrip : specStrip [] e = e := by
          obtain ⟨a1, a2, a3, a4, a5, a6, a7⟩ := e
          cases htags : a6 with
          | none =>
            subst htags
            simp [specStrip]
          | some ts =>
            subst htags
            simp [specStrip, filter_contains_nil]
        have hre : (if !([] : List String).isEmpty || !([] : List String).isEmpty then
            match e.tags with
            | some ts => ((processTags [] [] ts).1,
                { e with tags := some (processTags [] [] ts).2 })
            | none => (false, e)
          else (false, e)) = (false, e) := by
          rw [hblock', if_neg Bool.false_ne_true]
        exact exportLoop_keep_tail P ff [] [] st e e es hcond hre hkeep
          (by rw [hstrip]) h ih

/-- Claim C8: `ServiceExport.export` removes the `publications` subtree
unconditionally, and — when the export completes without raising — the
remaining elements are exactly those whose flavor is not in
`filter_by_flavor` and none of whose tags is in `filter_by_tag`, each with
every tag listed in `filter_tags` stripped (compared up to the URL
rewriting performed by the copying phase). -/
theorem c8_filtering (P : Params) (ff ft fs : List String) (m : MP) :
    (∀ m', (serviceExport .base P (.tree m) ff ft fs).1.mp = some m' →
      m'.publications = false) ∧
    ((serviceExport .base P (.tree m) ff ft fs).2 = none →
      ∃ m', (serviceExport .base P (.tree m) ff ft fs).1.mp = some m' ∧
        m'.elements.map projNoUrl =
          (specFilterElems ff ft fs m.elements).map projNoUrl) := by
  have hrun : serviceExport .base P (.tree m) ff ft fs =
      runExport .base P ff ft fs { seReset with mp := some m } := rfl
  rw [hrun]
  unfold runExport
  simp only []
  cases hloop : exportLoop .base P ff ft fs
      { seReset with mp := some { m with publications := false } }
      ({ m with publications := false } : MP).elements with
  | mk st2 rest =>
    obtain ⟨es, exc⟩ := rest
    cases exc with
    | some ex =>
      constructor
      · intro m' hm'
        simp only [hloop] at hm'
        simp only [Option.some.injEq] at hm'
        rw [← hm']
      · intro hnone
        simp [hloop] at hnone
    | none =>
      constructor
      · intro m' hm'
        simp only [hloop] at hm'
        simp only [Option.some.injEq] at hm'
        rw [← hm']
      · intro _
        refine ⟨{ { m with publications := false } with elements := es }, ?_, ?_⟩
        · simp [hloop]
        · have hh := exportLoop_base_elems P ff ft fs
            { seReset with mp := some { m with publications := false } }
            ({ m with publications := false } : MP).elements
            (by rw [hloop])
          rw [hloop] at hh
          simpa using hh


/-- Witness for `c8_filtering` at a concrete input. -/
theorem c8_filtering_witness :
    ∃ m', (serviceExport .base
      { fetch := fun _ => [], gp := fun u => .ok (u, u ++ ".d"),
        clean := fun u => .ok u, srcPath := fun u => .ok u,
        readSmil := fun _ => .ok [], guessType := fun _ => none }
      (.tree
        { mpId := some "mp1", hasMedia := true, publications := true,
          elements :=
            [{ tag := "track", id := "e1", flavor := some "f/v",
               transport := none, mimetype := none,
               tags := some ["keep", "strip1"], url := "u1" },
             { tag := "track", id := "e2", flavor := some "g/v",
               transport := none, mimetype := none,
               tags := some ["bad"], url := "u2" }] })
      ["g/v"] ["bad"] ["strip1"]).1.mp = some m' ∧
      m'.elements.map projNoUrl =
        (specFilterElems ["g/v"] ["bad"] ["strip1"]
          [{ tag := "track", id := "e1", flavor := some "f/v",
             transport := none, mimetype := none,
             tags := some ["keep", "strip1"], url := "u1" },
           { tag := "track", id := "e2", flavor := some "g/v",
             transport := none, mimetype := none,
             tags := some ["bad"], url := "u2" }]).map projNoUrl :=
  (c8_filtering
    { fetch := fun _ => [], gp := fun u => .ok (u, u ++ ".d"),
      clean := fun u => .ok u, srcPath := fun u => .ok u,
      readSmil := fun _ => .ok [], guessType := fun _ => none }
    ["g/v"] ["bad"] ["strip1"]
    { mpId := some "mp1", hasMedia := true, publications := true,
      elements :=
        [{ tag := "track", id := "e1", flavor := some "f/v",
           transport := none, mimetype := none,
           tags := some ["keep", "strip1"], url := "u1" },
         { tag := "track", id := "e2", flavor := some "g/v",
           transport := none, mimetype := none,
           tags := some ["bad"], url := "u2" }] }).2 (by decide)


theorem exportElement_err_state (gp : String → Except Exc (String × String))
    (st : SEState) (e : Element) (ex : Exc)
    (h : (exportElement gp st e).2.2 = some ex) :
    (exportElement gp st e).1 = st := by
  cases hgp : gp e.url with
  | error ex' => simp [exportElement, hgp]
  | ok sd =>
    by_cases hd : (dlookup st.paths sd.2).isSome
    · simp [exportElement, hgp, hd]
    · simp [exportElement, hgp, hd] at h

theorem exportElement_mono (gp : String → Except Exc (String × String))
    (st : SEState) (e : Element) (k : String)
    (h : (dlookup st.paths k).isSome) :
    (dlookup (exportElement gp st e).1.paths k).isSome := by
  cases hgp : gp e.url with
  | error ex => simpa [exportElement, hgp] using h
  | ok sd =>
    by_cases hd : (dlookup st.paths sd.2).isSome
    · simpa [exportElement, hgp, hd] using h
    · simp only [exportElement, hgp, hd]
      simp only [Bool.false_eq_true, if_false]
      exact dlookup_dictInsert_isSome _ _ _ _ h

theorem exportElement_none_url (gp : String → Except Exc (String × String))
    (st : SEState) (e : Element)
    (h : (exportElement gp st e).2.2 = none) :
    (dlookup (exportElement gp st e).1.paths
      (exportElement gp st e).2.1.url).isSome := by
  cases hgp : gp e.url with
  | error ex => simp [exportElement, hgp] at h
  | ok sd =>
    by_cases hd : (dlookup st.paths sd.2).isSome
    · simp [exportElement, hgp, hd] at h
    · simp only [exportElement, hgp, hd]
      simp only [Bool.false_eq_true, if_false]
      simp [dlookup_dictInsert_self]

theorem exportElement_smil_untouched (gp : String → Except Exc (String × String))
    (st : SEState) (e : Element) :
    (exportElement gp st e).1.elementsFromSmil = st.elementsFromSmil := by
  cases hgp : gp e.url with
  | error ex => simp [exportElement, hgp]
  | ok sd =>
    by_cases hd : (dlookup st.paths sd.2).isSome <;>
      simp [exportElement, hgp, hd]


theorem smilNewElem_url (gt : String → Option String) (qt : List String)
    (tagIdx : Nat) (e' : Element) :
    (smilNewElem gt qt tagIdx e').url = e'.url := by
  unfold smilNewElem
  cases hmt : e'.mimetype <;> by_cases hqt : qt.isEmpty <;> simp [hmt, hqt]

theorem smilLoop_inv (gp : String → Except Exc (String × String))
    (gt : String → Option String) (qt : List String) (tmpl : Element)
    (vs : List SmilVideo) (tagIdx : Nat) (st : SEState) :
    (∀ k, (dlookup st.paths k).isSome →
      (dlookup (smilLoop gp gt qt tmpl vs tagIdx st).1.paths k).isSome) ∧
    ((∀ el ∈ st.elementsFromSmil, (dlookup st.paths el.url).isSome) →
      ∀ el ∈ (smilLoop gp gt qt tmpl vs tagIdx st).1.elementsFromSmil,
        (dlookup (smilLoop gp gt qt tmpl vs tagIdx st).1.paths el.url).isSome) := by
  induction vs generalizing tagIdx st with
  | nil =>
    exact ⟨fun k h => h, fun hI el hel => hI el hel⟩
  | cons v vs ih =>
    by_cases hbrk : (!qt.isEmpty && decide (qt.length ≤ tagIdx)) = true
    · have heq : smilLoop gp gt qt tmpl (v :: vs) tagIdx st = (st, none) := by
        simp only [smilLoop]
        rw [hbrk]
        simp
      rw [heq]
      exact ⟨fun k h => h, fun hI el hel => hI el hel⟩
    · have hbrk' : (!qt.isEmpty && decide (qt.length ≤ tagIdx)) = false := by
        simpa using hbrk
      cases hexc : (exportElement gp st { tmpl with url := v.src }).2.2 with
      | none =>
        have heq : smilLoop gp gt qt tmpl (v :: vs) tagIdx st =
            smilLoop gp gt qt tmpl vs
              (if !qt.isEmpty then tagIdx + 1 else tagIdx)
              { (exportElement gp st { tmpl with url := v.src }).1 with
                elementsFromSmil :=
                  (exportElement gp st { tmpl with url := v.src }).1.elementsFromSmil ++
                  [smilNewElem gt qt tagIdx
                    (exportElement gp st { tmpl with url := v.src }).2.1] } := by
          simp only [smilLoop]
          rw [hbrk', hexc]
          simp
        rw [heq]
        obtain ⟨ihm, ihg⟩ := ih (if !qt.isEmpty then tagIdx + 1 else tagIdx)
          { (exportElement gp st { tmpl with url := v.src }).1 with
            elementsFromSmil :=
              (exportElement gp st { tmpl with url := v.src }).1.elementsFromSmil ++
              [smilNewElem gt qt tagIdx
                (exportElement gp st { tmpl with url := v.src }).2.1] }
        constructor
        · intro k hk
          exact ihm k (exportElement_mono gp st _ k hk)
        · intro hG
          refine ihg ?_
          intro el hel
          simp only [exportElement_smil_untouched, List.mem_append,
            List.mem_singleton] at hel
          rcases hel with hel | hel
          · exact exportElement_mono gp st _ _ (hG el hel)
          · subst hel
            rw [smilNewElem_url]
            exact exportElement_none_url gp st _ hexc
      | some ex =>
        have hst : (exportElement gp st { tmpl with url := v.src }).1 = st :=
          exportElement_err_state gp st _ ex hexc
        cases ex with
        | duplicateElement =>
          have heq : smilLoop gp gt qt tmpl (v :: vs) tagIdx st =
              smilLoop gp gt qt tmpl vs tagIdx st := by
            simp only [smilLoop]
            rw [hbrk', hexc, hst]
            simp
          rw [heq]
          exact ih tagIdx st
        | notFound =>
          have heq : smilLoop gp gt qt tmpl (v :: vs) tagIdx st =
              (st, some .notFound) := by
            simp only [smilLoop]
            rw [hbrk', hexc, hst]
            simp
          rw [heq]
          exact ⟨fun k h => h, fun hI el hel => hI el hel⟩
        | tooManyResults =>
          have heq : smilLoop gp gt qt tmpl (v :: vs) tagIdx st =
              (st, some .tooManyResults) := by
            simp only [smilLoop]
            rw [hbrk', hexc, hst]
            simp
          rw [heq]
          exact ⟨fun k h => h, fun hI el hel => hI el hel⟩
        | missingElement =>
          have heq : smilLoop gp gt qt tmpl (v :: vs) tagIdx st =
              (st, some .missingElement) := by
            simp only [smilLoop]
            rw [hbrk', hexc, hst]
            simp
          rw [heq]
          exact ⟨fun k h => h, fun hI el hel => hI el hel⟩
        | attributeError =>
          have heq : smilLoop gp gt qt tmpl (v :: vs) tagIdx st =
              (st, some .attributeError) := by
            simp only [smilLoop]
            rw [hbrk', hexc, hst]
            simp
          rw [heq]
          exact ⟨fun k h => h, fun hI el hel => hI el hel⟩
        | valueError =>
          have heq : smilLoop gp gt qt tmpl (v :: vs) tagIdx st =
              (st, some .valueError) := by
            simp only [smilLoop]
            rw [hbrk', hexc, hst]
            simp
          rw [heq]
          exact ⟨fun k h => h, fun hI el hel => hI el hel⟩


theorem exportFromSmil_inv (gp : String → Except Exc (String × String))
    (gt : String → Option String) (st : SEState) (tmplEl : Element)
    (videos : List SmilVideo) :
    (∀ k, (dlookup st.paths k).isSome →
      (dlookup (exportFromSmil gp gt st tmplEl videos).1.paths k).isSome) ∧
    ((∀ el ∈ st.elementsFromSmil, (dlookup st.paths el.url).isSome) →
      ∀ el ∈ (exportFromSmil gp gt st tmplEl videos).1.elementsFromSmil,
        (dlookup (exportFromSmil gp gt st tmplEl videos).1.paths el.url).isSome) :=
  smilLoop_inv gp gt st.qualityTags (prepTemplate st.qualityTags tmplEl)
    (sortVideos videos) 0 st

theorem exportStep_inv (v : Variant) (P : Params) (st : SEState) (e : Element) :
    (∀ k, (dlookup st.paths k).isSome →
      (dlookup (exportStep v P st e).1.paths k).isSome) ∧
    ((∀ el ∈ st.elementsFromSmil, (dlookup st.paths el.url).isSome) →
      ∀ el ∈ (exportStep v P st e).1.elementsFromSmil,
        (dlookup (exportStep v P st e).1.paths el.url).isSome) ∧
    ((exportStep v P st e).2.2 = none →
      ∀ e', (exportStep v P st e).2.1 = some e' →
        (dlookup (exportStep v P st e).1.paths e'.url).isSome) := by
  have hgoodE : ∀ (st₀ : SEState) (e₀ : Element),
      (∀ el ∈ st₀.elementsFromSmil, (dlookup st₀.paths el.url).isSome) →
      ∀ el ∈ (exportElement P.gp st₀ e₀).1.elementsFromSmil,
        (dlookup (exportElement P.gp st₀ e₀).1.paths el.url).isSome := by
    intro st₀ e₀ hG el hel
    rw [exportElement_smil_untouched] at hel
    exact exportElement_mono P.gp st₀ e₀ _ (hG el hel)
  cases v with
  | base =>
    refine ⟨fun k hk => exportElement_mono P.gp st e k hk, hgoodE st e, ?_⟩
    intro hnone e' he'
    have he2 : some (exportElement P.gp st e).2.1 = some e' := he'
    rw [← Option.some.inj he2]
    exact exportElement_none_url P.gp st e hnone
  | arch =>
    have heq : exportStep .arch P st e =
        match (exportElement P.gp st e).2.2 with
        | some .duplicateElement => (st, none, none)
        | _ => ((exportElement P.gp st e).1, some (exportElement P.gp st e).2.1,
            (exportElement P.gp st e).2.2) := rfl
    cases hexc : (exportElement P.gp st e).2.2 with
    | none =>
      rw [heq, hexc]
      refine ⟨fun k hk => exportElement_mono P.gp st e k hk, hgoodE st e, ?_⟩
      intro _ e' he'
      have : (exportElement P.gp st e).2.1 = e' := by simpa using he'
      rw [← this]
      exact exportElement_none_url P.gp st e hexc
    | some ex =>
      have hst := exportElement_err_state P.gp st e ex hexc
      rw [heq, hexc]
      cases ex with
      | duplicateElement =>
        exact ⟨fun k h => h, fun hI el hel => hI el hel,
          fun _ e' he' => by simp at he'⟩
      | notFound =>
        rw [hst]
        exact ⟨fun k h => h, fun hI el hel => hI el hel, fun h => by simp at h⟩
      | tooManyResults =>
        rw [hst]
        exact ⟨fun k h => h, fun hI el hel => hI el hel, fun h => by simp at h⟩
      | missingElement =>
        rw [hst]
        exact ⟨fun k h => h, fun hI el hel => hI el hel, fun h => by simp at h⟩
      | attributeError =>
        rw [hst]
        exact ⟨fun k h => h, fun hI el hel => hI el hel, fun h => by simp at h⟩
      | valueError =>
        rw [hst]
        exact ⟨fun k h => h, fun hI el hel => hI el hel, fun h => by simp at h⟩
  | pub =>
    cases hcl : P.clean e.url with
    | error ex =>
      have heq : exportStep .pub P st e = (st, some e, some ex) := by
        simp only [exportStep]
        rw [hcl]
      rw [heq]
      exact ⟨fun k h => h, fun hI el hel => hI el hel, fun h => by simp at h⟩
    | ok cleanPath =>
      cases hexc : (exportElement P.gp st e).2.2 with
      | some ex =>
        have hst := exportElement_err_state P.gp st e ex hexc
        cases ex with
        | duplicateElement =>
          have heq : exportStep .pub P st e = (st, none, none) := by
            simp only [exportStep]
            rw [hcl]
            simp only [hexc]
          rw [heq]
          exact ⟨fun k h => h, fun hI el hel => hI el hel,
            fun _ e' he' => by simp at he'⟩
        | notFound =>
          have heq : exportStep .pub P st e =
              ((exportElement P.gp st e).1,
               some (exportElement P.gp st e).2.1, some .notFound) := by
            simp only [exportStep]
            rw [hcl, hexc]
          rw [heq, hst]
          exact ⟨fun k h => h, fun hI el hel => hI el hel, fun h => by simp at h⟩
        | tooManyResults =>
          have heq : exportStep .pub P st e =
              ((exportElement P.gp st e).1,
               some (exportElement P.gp st e).2.1, some .tooManyResults) := by
            simp only [exportStep]
            rw [hcl, hexc]
          rw [heq, hst]
          exact ⟨fun k h => h, fun hI el hel => hI el hel, fun h => by simp at h⟩
        | missingElement =>
          have heq : exportStep .pub P st e =
              ((exportElement P.gp st e).1,
               some (exportElement P.gp st e).2.1, some .missingElement) := by
            simp only [exportStep]
            rw [hcl, hexc]
          rw [heq, hst]
          exact ⟨fun k h => h, fun hI el hel => hI el hel, fun h => by simp at h⟩
        | attributeError =>
          have heq : exportStep .pub P st e =
              ((exportElement P.gp st e).1,
               some (exportElement P.gp st e).2.1, some .attributeError) := by
            simp only [exportStep]
            rw [hcl, hexc]
          rw [heq, hst]
          exact ⟨fun k h => h, fun hI el hel => hI el hel, fun h => by simp at h⟩
        | valueError =>
          have heq : exportStep .pub P st e =
              ((exportElement P.gp st e).1,
               some (exportElement P.gp st e).2.1, some .valueError) := by
            simp only [exportStep]
            rw [hcl, hexc]
          rw [heq, hst]
          exact ⟨fun k h => h, fun hI el hel => hI el hel, fun h => by simp at h⟩
      | none =>
        by_cases hsm : isSmilPathS cleanPath = true
        · cases hsp : P.srcPath cleanPath with
          | error ex =>
            have heq : exportStep .pub P st e =
                ((exportElement P.gp st e).1,
                 some (exportElement P.gp st e).2.1, some ex) := by
              simp only [exportStep]
              rw [hcl]
              simp only [hexc, hsm, hsp]
              simp
            rw [heq]
            exact ⟨fun k hk => exportElement_mono P.gp st e k hk,
              hgoodE st e, fun h => by simp at h⟩
          | ok sp =>
            cases hrd : P.readSmil sp with
            | error ex =>
              have heq : exportStep .pub P st e =
                  ((exportElement P.gp st e).1,
                   some (exportElement P.gp st e).2.1, some ex) := by
                simp only [exportStep]
                rw [hcl]
                simp only [hexc, hsm, hsp, hrd]
                simp
              rw [heq]
              exact ⟨fun k hk => exportElement_mono P.gp st e k hk,
                hgoodE st e, fun h => by simp at h⟩
            | ok videos =>
              cases hfs : (exportFromSmil P.gp P.guessType
                  (exportElement P.gp st e).1 (exportElement P.gp st e).2.1
                  videos).2 with
              | none =>
                have heq : exportStep .pub P st e =
                    ((exportFromSmil P.gp P.guessType
                      (exportElement P.gp st e).1 (exportElement P.gp st e).2.1
                      videos).1, none, none) := by
                  simp only [exportStep]
                  rw [hcl]
                  simp only [hexc, hsm, hsp, hrd, hfs]
                  simp
                rw [heq]
                obtain ⟨hm, hg⟩ := exportFromSmil_inv P.gp P.guessType
                  (exportElement P.gp st e).1 (exportElement P.gp st e).2.1
                  videos
                refine ⟨?_, ?_, fun _ e' he' => by simp at he'⟩
                · intro k hk
                  exact hm k (exportElement_mono P.gp st e k hk)
                · intro hG el hel
                  exact hg (hgoodE st e hG) el hel
              | some ex =>
                have heq : exportStep .pub P st e =
                    ((exportFromSmil P.gp P.guessType
                      (exportElement P.gp st e).1 (exportElement P.gp st e).2.1
                      videos).1,
                     some (prepTemplate (exportElement P.gp st e).1.qualityTags
                       (exportElement P.gp st e).2.1), some ex) := by
                  simp only [exportStep]
                  rw [hcl]
                  simp only [hexc, hsm, hsp, hrd, hfs]
                  simp
                rw [heq]
                obtain ⟨hm, hg⟩ := exportFromSmil_inv P.gp P.guessType
                  (exportElement P.gp st e).1 (exportElement P.gp st e).2.1
                  videos
                refine ⟨?_, ?_, fun h => by simp at h⟩
                · intro k hk
                  exact hm k (exportElement_mono P.gp st e k hk)
                · intro hG el hel
                  exact hg (hgoodE st e hG) el hel
        · have hsm' : isSmilPathS cleanPath = false := by simpa using hsm
          have heq : exportStep .pub P st e =
              ((exportElement P.gp st e).1,
               some (exportElement P.gp st e).2.1, none) := by
            simp only [exportStep]
            rw [hcl]
            simp only [hexc, hsm']
            simp
          rw [heq]
          refine ⟨fun k hk => exportElement_mono P.gp st e k hk,
            hgoodE st e, ?_⟩
          intro _ e' he'
          have : (exportElement P.gp st e).2.1 = e' := by simpa using he'
          rw [← this]
          exact exportElement_none_url P.gp st e hexc


theorem exportLoop_inv (v : Variant) (P : Params) (ff ft fs : List String)
    (st : SEState) (es : List Element) :
    (∀ k, (dlookup st.paths k).isSome →
      (dlookup (exportLoop v P ff ft fs st es).1.paths k).isSome) ∧
    ((∀ el ∈ st.elementsFromSmil, (dlookup st.paths el.url).isSome) →
      (exportLoop v P ff ft fs st es).2.2 = none →
      (∀ el ∈ (exportLoop v P ff ft fs st es).1.elementsFromSmil,
        (dlookup (exportLoop v P ff ft fs st es).1.paths el.url).isSome) ∧
      (∀ e ∈ (exportLoop v P ff ft fs st es).2.1,
        (dlookup (exportLoop v P ff ft fs st es).1.paths e.url).isSome)) := by
  induction es generalizing st with
  | nil =>
    refine ⟨fun k h => h, fun hG _ => ⟨fun el hel => hG el hel, ?_⟩⟩
    intro e he
    simp [exportLoop] at he
  | cons e es ih =>
    by_cases hflav : (!ff.isEmpty && optMem e.flavor ff) = true
    · rw [exportLoop_cons_flavor v P ff ft fs st e es hflav]
      exact ih st
    · have hflav' : (!ff.isEmpty && optMem e.flavor ff) = false := by
        simpa using hflav
      cases hre : (if !ft.isEmpty || !fs.isEmpty then
          match e.tags with
          | some ts => ((processTags ft fs ts).1,
              { e with tags := some (processTags ft fs ts).2 })
          | none => (false, e)
        else (false, e)) with
      | mk b e1 =>
        cases b with
        | true =>
          have hre1 : (if !ft.isEmpty || !fs.isEmpty then
              match e.tags with
              | some ts => ((processTags ft fs ts).1,
                  { e with tags := some (processTags ft fs ts).2 })
              | none => (false, e)
            else (false, e)).1 = true := by rw [hre]
          rw [exportLoop_cons_tagdrop v P ff ft fs st e es hflav' hre1]
          exact ih st
        | false =>
          rw [exportLoop_cons_keep v P ff ft fs st e e1 es hflav' hre]
          obtain ⟨hsm, hsg, hsu⟩ := exportStep_inv v P st e1
          cases hexc : (exportStep v P st e1).2.2 with
          | some ex =>
            refine ⟨fun k hk => hsm k hk, ?_⟩
            intro hG habs
            simp at habs
          | none =>
            obtain ⟨ihm, ihg⟩ := ih (exportStep v P st e1).1
            refine ⟨fun k hk => ihm k (hsm k hk), ?_⟩
            intro hG hrest
            simp only [] at hrest
            obtain ⟨ihg1, ihg2⟩ := ihg (hsg hG) hrest
            refine ⟨ihg1, ?_⟩
            intro e2 he2
            simp only [List.mem_append] at he2
            rcases he2 with he2 | he2
            · cases hopt : (exportStep v P st e1).2.1 with
              | none => rw [hopt] at he2; simp at he2
              | some e' =>
                rw [hopt] at he2
                simp only [Option.toList_some, List.mem_singleton] at he2
                rw [he2]
                exact ihm _ (hsu hexc e' hopt)
            · exact ihg2 e2 he2

theorem runExport_inv (v : Variant) (P : Params) (ff ft fs : List String)
    (st1 : SEState)
    (hG : ∀ el ∈ st1.elementsFromSmil, (dlookup st1.paths el.url).isSome)
    (hexc : (runExport v P ff ft fs st1).2 = none) :
    ∀ m, (runExport v P ff ft fs st1).1.mp = some m →
      ∀ e ∈ m.elements,
        (dlookup (runExport v P ff ft fs st1).1.paths e.url).isSome := by
  cases hmp : st1.mp with
  | none =>
    intro m hm e he
    have hnone : (runExport v P ff ft fs st1).1.mp = none := by
      unfold runExport
      rw [hmp]
      exact hmp
    rw [hnone] at hm
    exact absurd hm (by simp)
  | some m0 =>
    obtain ⟨hlm, hlg⟩ := exportLoop_inv v P ff ft fs
      { st1 with mp := some { m0 with publications := false } } m0.elements
    simp only [runExport, hmp] at hexc ⊢
    cases hlexc : (exportLoop v P ff ft fs
        { st1 with mp := some { m0 with publications := false } } m0.elements).2.2 with
    | some ex =>
      simp only [hlexc] at hexc
      simp at hexc
    | none =>
      obtain ⟨hg1, hg2⟩ := hlg hG hlexc
      simp only [hlexc] at hexc ⊢
      cases v with
      | base =>
        intro m hm e he
        simp only [Option.some.injEq] at hm
        rw [← hm] at he
        exact hg2 e he
      | arch =>
        intro m hm e he
        simp only [Option.some.injEq] at hm
        rw [← hm] at he
        exact hg2 e he
      | pub =>
        by_cases hmedia : m0.hasMedia = true
        · simp only [if_pos hmedia] at hexc ⊢
          intro m hm e he
          simp only [Option.some.injEq] at hm
          rw [← hm] at he
          simp only [List.mem_append] at he
          rcases he with he | he
          · exact hg2 e he
          · exact hg1 e he
        · simp only [if_neg hmedia] at hexc
          simp at hexc

/-- Claim C10: after a `ServiceExport.export` call (any of the three
variants) that completes without raising, the URL text of every element in
the resulting mediapackage tree is a key of the exporter's `paths` map:
no surviving element still carries its original remote URL. -/
theorem c10_urls_are_path_keys (v : Variant) (P : Params) (arg : MediapArg)
    (ff ft fs : List String)
    (hexc : (serviceExport v P arg ff ft fs).2 = none)
    (m : MP) (hmp : (serviceExport v P arg ff ft fs).1.mp = some m) :
    ∀ e ∈ m.elements,
      (dlookup (serviceExport v P arg ff ft fs).1.paths e.url).isSome := by
  cases arg with
  | str s =>
    cases hu : getUniqueMp P.fetch s with
    | error ex =>
      have heq : serviceExport v P (.str s) ff ft fs = (seReset, none) := by
        simp [serviceExport, hu]
      rw [heq] at hmp
      exact absurd hmp (by simp [seReset])
    | ok m0 =>
      have heq : ∃ qt, serviceExport v P (.str s) ff ft fs =
          runExport v P ff ft fs
            { seReset with
              mp := some m0
              qualityTags := qt } := by
        apply Exists.intro
        simp only [serviceExport, hu]
        rfl
      obtain ⟨qt, heq⟩ := heq
      rw [heq] at hexc hmp ⊢
      exact runExport_inv v P ff ft fs _ (by intro el hel; simp [seReset] at hel)
        hexc m hmp
  | tree m0 =>
    have heq : serviceExport v P (.tree m0) ff ft fs =
        runExport v P ff ft fs { seReset with mp := some m0 } := rfl
    rw [heq] at hexc hmp ⊢
    exact runExport_inv v P ff ft fs _ (by intro el hel; simp [seReset] at hel)
      hexc m hmp
  | noneV =>
    simp [serviceExport] at hexc


/-- Witness for `c10_urls_are_path_keys` at a concrete input. -/
theorem c10_urls_are_path_keys_witness :
    (dlookup (serviceExport .base
      { fetch := fun _ => [], gp := fun u => .ok (u, u ++ ".d"),
        clean := fun u => .ok u, srcPath := fun u => .ok u,
        readSmil := fun _ => .ok [], guessType := fun _ => none }
      (.tree
        { mpId := some "mp1", hasMedia := true, publications := true,
          elements :=
            [{ tag := "track", id := "e1", flavor := some "f/v",
               transport := none, mimetype := none, tags := none,
               url := "u1" }] })
      [] [] []).1.paths "u1.d").isSome :=
  c10_urls_are_path_keys .base
    { fetch := fun _ => [], gp := fun u => .ok (u, u ++ ".d"),
      clean := fun u => .ok u, srcPath := fun u => .ok u,
      readSmil := fun _ => .ok [], guessType := fun _ => none }
    (.tree
      { mpId := some "mp1", hasMedia := true, publications := true,
        elements :=
          [{ tag := "track", id := "e1", flavor := some "f/v",
             transport := none, mimetype := none, tags := none,
             url := "u1" }] })
    [] [] [] (by decide)
    { mpId := some "mp1", hasMedia := true, publications := false,
      elements :=
        [{ tag := "track", id := "e1", flavor := some "f/v",
           transport := none, mimetype := none, tags := none,
           url := "u1.d" }] }
    (by decide)
    { tag := "track", id := "e1", flavor := some "f/v",
      transport := none, mimetype := none, tags := none,
      url := "u1.d" }
    (by decide)


/-! ## Claim C3: the three-rendition quality-tag scenario -/

theorem stableInsert_perm {α : Type} (le : α → α → Bool) (x : α)
    (l : List α) : (stableInsert le x l).Perm (x :: l) := by
  induction l with
  | nil => exact List.Perm.refl _
  | cons y ys ih =>
    simp only [stableInsert]
    by_cases h : le x y = true
    · rw [if_pos h]
    · rw [if_neg h]
      exact (List.Perm.cons y ih).trans (List.Perm.swap x y ys)

theorem stableSort_perm {α : Type} (le : α → α → Bool) (l : List α) :
    (stableSort le l).Perm l := by
  induction l with
  | nil => exact List.Perm.refl _
  | cons x xs ih =>
    simp only [stableSort]
    exact (stableInsert_perm le x (stableSort le xs)).trans
      (List.Perm.cons x ih)

theorem stableInsert_pairwise {α : Type} (le : α → α → Bool)
    (htot : ∀ a b, le a b = false → le b a = true)
    (htrans : ∀ a b c, le a b = true → le b c = true → le a c = true)
    (x : α) (l : List α)
    (hs : l.Pairwise (fun a b => le a b = true)) :
    (stableInsert le x l).Pairwise (fun a b => le a b = true) := by
  induction l with
  | nil => simp [stableInsert]
  | cons y ys ih =>
    obtain ⟨hy, hys⟩ := List.pairwise_cons.mp hs
    simp only [stableInsert]
    by_cases h : le x y = true
    · rw [if_pos h]
      refine List.Pairwise.cons ?_ hs
      intro z hz
      rcases List.mem_cons.mp hz with rfl | hzys
      · exact h
      · exact htrans x y z h (hy z hzys)
    · rw [if_neg h]
      refine List.Pairwise.cons ?_ (ih hys)
      intro z hz
      have hmem : z = x ∨ z ∈ ys := by
        have hz' := (stableInsert_perm le x ys).mem_iff.mp hz
        simpa using hz'
      rcases hmem with heq | hzys
      · rw [heq]
        exact htot x y (Bool.not_eq_true _ ▸ eq_false_of_ne_true h)
      · exact hy z hzys

theorem stableSort_pairwise {α : Type} (le : α → α → Bool)
    (htot : ∀ a b, le a b = false → le b a = true)
    (htrans : ∀ a b c, le a b = true → le b c = true → le a c = true)
    (l : List α) :
    (stableSort le l).Pairwise (fun a b => le a b = true) := by
  induction l with
  | nil => simp [stableSort]
  | cons x xs ih =>
    simp only [stableSort]
    exact stableInsert_pairwise le htot htrans x (stableSort le xs) ih

theorem sortVideos_three (sa sb sc : String) (videos : List SmilVideo)
    (hperm : videos.Perm [⟨2000, sa⟩, ⟨1000, sb⟩, ⟨500, sc⟩]) :
    sortVideos videos = [⟨2000, sa⟩, ⟨1000, sb⟩, ⟨500, sc⟩] := by
  have hp : (sortVideos videos).Perm [⟨2000, sa⟩, ⟨1000, sb⟩, ⟨500, sc⟩] :=
    (stableSort_perm _ videos).trans hperm
  haveI : IsAntisymm SmilVideo (fun a b => a = b ∨ b.bitrate < a.bitrate) := by
    constructor
    intro a b hab hba
    rcases hab with rfl | h1
    · rfl
    · rcases hba with rfl | h2
      · rfl
      · exact absurd (h1.trans h2) (lt_irrefl _)
  apply List.eq_of_perm_of_sorted (r := fun a b => a = b ∨ b.bitrate < a.bitrate) hp
  · have hs := stableSort_pairwise (fun a b => decide (b.bitrate ≤ a.bitrate))
      (by intro a b hab; simp at hab ⊢; omega)
      (by intro a b c hab hbc; simp at hab hbc ⊢; omega)
      videos
    refine List.Pairwise.imp_of_mem ?_ hs
    intro a b ha hb hle
    have ha' : a ∈ [(⟨2000, sa⟩ : SmilVideo), ⟨1000, sb⟩, ⟨500, sc⟩] := hp.subset ha
    have hb' : b ∈ [(⟨2000, sa⟩ : SmilVideo), ⟨1000, sb⟩, ⟨500, sc⟩] := hp.subset hb
    simp only [List.mem_cons, List.not_mem_nil, or_false] at ha' hb'
    simp only [decide_eq_true_eq] at hle
    rcases ha' with rfl | rfl | rfl <;> rcases hb' with rfl | rfl | rfl <;>
      simp_all
  · refine List.Pairwise.cons ?_ (List.Pairwise.cons ?_ ?_)
    · intro b hb
      simp only [List.mem_cons, List.not_mem_nil, or_false] at hb
      rcases hb with rfl | rfl
      · exact Or.inr (show (1000 : Int) < (2000 : Int) by norm_num)
      · exact Or.inr (show (500 : Int) < (2000 : Int) by norm_num)
    · intro b hb
      simp only [List.mem_cons, List.not_mem_nil, or_false] at hb
      rcases hb with rfl
      exact Or.inr (show (500 : Int) < (1000 : Int) by norm_num)
    · simp

/-- Appending the quality tag at position `tagIdx` (lines 684–688): when
the quality-tag list is non-empty, the synthesized track's tag list ends
in `quality_tags[tag_index]`. -/
theorem smilNewElem_tags (gt : String → Option String) (qt : List String)
    (i : Nat) (e' : Element) (h : qt.isEmpty = false) :
    ∃ ts, (smilNewElem gt qt i e').tags = some (ts ++ [qt.getD i ""]) := by
  refine ⟨e'.tags.getD [], ?_⟩
  unfold smilNewElem
  cases hmt : e'.mimetype <;> simp [hmt, h]

/-- One successful iteration of the rendition loop: the destination is
registered, the synthesized track is appended, and `tag_index` advances
when the quality-tag list is non-empty. -/
theorem smilLoop_step_ok (gp : String → Except Exc (String × String))
    (gt : String → Option String) (qt : List String) (tmpl : Element)
    (v : SmilVideo) (vs : List SmilVideo) (tagIdx : Nat) (st : SEState)
    (c d : String)
    (hbrk : (!qt.isEmpty && decide (qt.length ≤ tagIdx)) = false)
    (hg : gp v.src = .ok (c, d))
    (hd : dlookup st.paths d = none) :
    smilLoop gp gt qt tmpl (v :: vs) tagIdx st =
      smilLoop gp gt qt tmpl vs (if !qt.isEmpty then tagIdx + 1 else tagIdx)
        { st with
          paths := dictInsert st.paths d c
          exported := dictInsert st.exported d tmpl.id
          elementsFromSmil := st.elementsFromSmil ++
            [smilNewElem gt qt tagIdx { tmpl with url := d }] } := by
  have hexp : exportElement gp st { tmpl with url := v.src } =
      ({ st with
         paths := dictInsert st.paths d c
         exported := dictInsert st.exported d tmpl.id },
       { tmpl with url := d }, none) := by
    simp [exportElement, hg, hd]
  simp only [smilLoop]
  rw [hbrk, hexp]
  simp

/-- The rendition loop stops as soon as `tag_index` reaches the length of a
non-empty quality-tag list (lines 645–647). -/
theorem smilLoop_stop (gp : String → Except Exc (String × String))
    (gt : String → Option String) (qt : List String) (tmpl : Element)
    (v : SmilVideo) (vs : List SmilVideo) (tagIdx : Nat) (st : SEState)
    (hbrk : (!qt.isEmpty && decide (qt.length ≤ tagIdx)) = true) :
    smilLoop gp gt qt tmpl (v :: vs) tagIdx st = (st, none) := by
  simp only [smilLoop]
  rw [hbrk]
  simp

/-- Claim C3: flattening a descriptor with exactly three renditions of
bitrates 500, 1000 and 2000 (in any file order) under the quality-tag list
`["high", "low"]`, with both resolved destinations fresh and distinct,
produces exactly two new track elements: one for the 2000-bitrate rendition
whose tag list ends in `"high"`, and one for the 1000-bitrate rendition
whose tag list ends in `"low"`; the 500-bitrate rendition yields none. -/
theorem c3_three_renditions (gp : String → Except Exc (String × String))
    (guessType : String → Option String) (st : SEState) (sm : Element)
    (videos : List SmilVideo) (sa sb sc ca cb da db : String)
    (hqt : st.qualityTags = ["high", "low"])
    (hperm : videos.Perm [⟨2000, sa⟩, ⟨1000, sb⟩, ⟨500, sc⟩])
    (hga : gp sa = .ok (ca, da))
    (hgb : gp sb = .ok (cb, db))
    (hda : dlookup st.paths da = none)
    (hdb : dlookup st.paths db = none)
    (hne : db ≠ da) :
    (exportFromSmil gp guessType st sm videos).2 = none ∧
    ∃ e1 e2,
      (exportFromSmil gp guessType st sm videos).1.elementsFromSmil
        = st.elementsFromSmil ++ [e1, e2] ∧
      e1.url = da ∧ (∃ ts, e1.tags = some (ts ++ ["high"])) ∧
      e2.url = db ∧ (∃ ts, e2.tags = some (ts ++ ["low"])) := by
  have hsort := sortVideos_three sa sb sc videos hperm
  unfold exportFromSmil
  rw [hqt, hsort]
  rw [smilLoop_step_ok gp guessType ["high", "low"]
    (prepTemplate ["high", "low"] sm) ⟨2000, sa⟩ [⟨1000, sb⟩, ⟨500, sc⟩] 0 st
    ca da (by decide) hga hda]
  rw [show (if !(["high", "low"] : List String).isEmpty then 0 + 1 else 0)
    = 1 from rfl]
  rw [smilLoop_step_ok gp guessType ["high", "low"]
    (prepTemplate ["high", "low"] sm) ⟨1000, sb⟩ [⟨500, sc⟩] 1 _
    cb db (by decide) hgb
    (show dlookup (dictInsert st.paths da ca) db = none by
      rw [dlookup_dictInsert_ne st.paths da db ca hne]
      exact hdb)]
  rw [show (if !(["high", "low"] : List String).isEmpty then 1 + 1 else 1)
    = 2 from rfl]
  rw [smilLoop_stop gp guessType ["high", "low"]
    (prepTemplate ["high", "low"] sm) ⟨500, sc⟩ [] 2 _ (by decide)]
  refine ⟨rfl,
    smilNewElem guessType ["high", "low"] 0
      { prepTemplate ["high", "low"] sm with url := da },
    smilNewElem guessType ["high", "low"] 1
      { prepTemplate ["high", "low"] sm with url := db },
    ?_, ?_, ?_, ?_, ?_⟩
  · show (st.elementsFromSmil ++ [_]) ++ [_] = st.elementsFromSmil ++ [_, _]
    simp
  · rw [smilNewElem_url]
  · exact smilNewElem_tags guessType ["high", "low"] 0 _ (by decide)
  · rw [smilNewElem_url]
  · exact smilNewElem_tags guessType ["high", "low"] 1 _ (by decide)

/-- Witness for `c3_three_renditions` at a concrete input. -/
theorem c3_three_renditions_witness :
    (exportFromSmil (fun u => .ok (u, u ++ ".d")) (fun _ => none)
      { mp := none, paths := [], exported := [], elementsFromSmil := [],
        qualityTags := ["high", "low"] }
      { tag := "catalog", id := "s1", flavor := none, transport := some "x",
        mimetype := none, tags := none, url := "s.smil" }
      [⟨500, "a"⟩, ⟨2000, "b"⟩, ⟨1000, "c"⟩]).2 = none ∧
    ∃ e1 e2,
      (exportFromSmil (fun u => .ok (u, u ++ ".d")) (fun _ => none)
        { mp := none, paths := [], exported := [], elementsFromSmil := [],
          qualityTags := ["high", "low"] }
        { tag := "catalog", id := "s1", flavor := none, transport := some "x",
          mimetype := none, tags := none, url := "s.smil" }
        [⟨500, "a"⟩, ⟨2000, "b"⟩, ⟨1000, "c"⟩]).1.elementsFromSmil
        = [] ++ [e1, e2] ∧
      e1.url = "b.d" ∧ (∃ ts, e1.tags = some (ts ++ ["high"])) ∧
      e2.url = "c.d" ∧ (∃ ts, e2.tags = some (ts ++ ["low"])) :=
  c3_three_renditions (fun u => .ok (u, u ++ ".d")) (fun _ => none)
    { mp := none, paths := [], exported := [], elementsFromSmil := [],
      qualityTags := ["high", "low"] }
    { tag := "catalog", id := "s1", flavor := none, transport := some "x",
      mimetype := none, tags := none, url := "s.smil" }
    [⟨500, "a"⟩, ⟨2000, "b"⟩, ⟨1000, "c"⟩]
    "b" "c" "a" "b" "c" "b.d" "c.d"
    rfl (by decide) rfl rfl rfl rfl (by decide)


/-! ## Claim C6: quality-tag positions in the rendition loop -/

theorem smilLoop_tags (gp : String → Except Exc (String × String))
    (gt : String → Option String) (qt : List String) (tmpl : Element)
    (hqt : qt.isEmpty = false) :
    ∀ (vs : List SmilVideo) (tagIdx : Nat) (st : SEState),
    ∃ new, (smilLoop gp gt qt tmpl vs tagIdx st).1.elementsFromSmil
        = st.elementsFromSmil ++ new ∧
      new.length ≤ qt.length - tagIdx ∧
      ∀ j (hj : j < new.length),
        ∃ ts, (new.get ⟨j, hj⟩).tags = some (ts ++ [qt.getD (tagIdx + j) ""]) := by
  intro vs
  induction vs with
  | nil =>
    intro tagIdx st
    exact ⟨[], by simp [smilLoop], by simp, fun j hj => absurd hj (by simp)⟩
  | cons v vs ih =>
    intro tagIdx st
    by_cases hbrk : (!qt.isEmpty && decide (qt.length ≤ tagIdx)) = true
    · rw [smilLoop_stop gp gt qt tmpl v vs tagIdx st hbrk]
      exact ⟨[], by simp, by simp, fun j hj => absurd hj (by simp)⟩
    · have hbrk' : (!qt.isEmpty && decide (qt.length ≤ tagIdx)) = false := by
        simpa using hbrk
      have hlt : tagIdx < qt.length := by
        simp [hqt] at hbrk'
        omega
      cases hexc : (exportElement gp st { tmpl with url := v.src }).2.2 with
      | none =>
        have heq : smilLoop gp gt qt tmpl (v :: vs) tagIdx st =
            smilLoop gp gt qt tmpl vs
              (if !qt.isEmpty then tagIdx + 1 else tagIdx)
              { (exportElement gp st { tmpl with url := v.src }).1 with
                elementsFromSmil :=
                  (exportElement gp st { tmpl with url := v.src }).1.elementsFromSmil ++
                  [smilNewElem gt qt tagIdx
                    (exportElement gp st { tmpl with url := v.src }).2.1] } := by
          simp only [smilLoop]
          rw [hbrk', hexc]
          simp
        rw [heq]
        rw [show (if !qt.isEmpty then tagIdx + 1 else tagIdx) = tagIdx + 1 by
          simp [hqt]]
        obtain ⟨new', h1, h2, h3⟩ := ih (tagIdx + 1)
          { (exportElement gp st { tmpl with url := v.src }).1 with
            elementsFromSmil :=
              (exportElement gp st { tmpl with url := v.src }).1.elementsFromSmil ++
              [smilNewElem gt qt tagIdx
                (exportElement gp st { tmpl with url := v.src }).2.1] }
        refine ⟨smilNewElem gt qt tagIdx
          (exportElement gp st { tmpl with url := v.src }).2.1 :: new', ?_, ?_, ?_⟩
        · rw [h1]
          simp [exportElement_smil_untouched]
        · simp only [List.length_cons]
          omega
        · intro j hj
          cases j with
          | zero =>
            simpa using smilNewElem_tags gt qt tagIdx
              (exportElement gp st { tmpl with url := v.src }).2.1 hqt
          | succ j =>
            have hj' : j < new'.length := by
              simpa using Nat.lt_of_succ_lt_succ hj
            have hidx : tagIdx + (j + 1) = tagIdx + 1 + j := by omega
            rw [hidx]
            simpa using h3 j hj'
      | some ex =>
        have hst : (exportElement gp st { tmpl with url := v.src }).1 = st :=
          exportElement_err_state gp st { tmpl with url := v.src } ex hexc
        cases ex
        all_goals first
        | · have heq : smilLoop gp gt qt tmpl (v :: vs) tagIdx st =
                smilLoop gp gt qt tmpl vs tagIdx st := by
              simp only [smilLoop]
              rw [hbrk', hexc, hst]
              simp
            rw [heq]
            exact ih tagIdx st
        | · have heq : smilLoop gp gt qt tmpl (v :: vs) tagIdx st
                = ((exportElement gp st { tmpl with url := v.src }).1,
                   (exportElement gp st { tmpl with url := v.src }).2.2) := by
              simp only [smilLoop]
              rw [hbrk', hexc]
              simp
            rw [heq, hst]
            exact ⟨[], by simp, by simp, fun j hj => absurd hj (by simp)⟩

/-- Claim C6 (amended): the flattener visits renditions in
descending-bitrate order; with a non-empty quality-tag list it synthesizes
at most `len(quality_tags)` tracks, and the k-th synthesized track (in
output order, counting only successful exports) carries the quality tag at
position k.  The stop condition counts successful exports, not rendition
indices: a skipped duplicate does not advance the position. -/
theorem c6_flattener_quality_tags (gp : String → Except Exc (String × String))
    (gt : String → Option String) (st : SEState) (sm : Element)
    (videos : List SmilVideo)
    (hqt : st.qualityTags.isEmpty = false) :
    ((sortVideos videos).Pairwise fun a b => b.bitrate ≤ a.bitrate) ∧
    ∃ new, (exportFromSmil gp gt st sm videos).1.elementsFromSmil
        = st.elementsFromSmil ++ new ∧
      new.length ≤ st.qualityTags.length ∧
      ∀ j (hj : j < new.length),
        ∃ ts, (new.get ⟨j, hj⟩).tags
          = some (ts ++ [st.qualityTags.getD j ""]) := by
  constructor
  · have hs := stableSort_pairwise (fun a b => decide (b.bitrate ≤ a.bitrate))
      (by intro a b hab; simp at hab ⊢; omega)
      (by intro a b c hab hbc; simp at hab hbc ⊢; omega)
      videos
    exact hs.imp (by intro a b h; simpa using h)
  · obtain ⟨new, h1, h2, h3⟩ := smilLoop_tags gp gt st.qualityTags
      (prepTemplate st.qualityTags sm) hqt (sortVideos videos) 0 st
    refine ⟨new, ?_, ?_, ?_⟩
    · simpa [exportFromSmil] using h1
    · simpa using h2
    · intro j hj
      simpa using h3 j hj

/-- Counterexample to claim C6 as stated: renditions `[2000, 1000, 500]`
where the 2000- and 1000-bitrate sources resolve to the same destination.
The 1000-bitrate rendition is skipped as a duplicate without advancing
`tag_index`, so the loop does not stop at rendition index
`len(quality_tags)` `=` 2: the 500-bitrate rendition (index 2) is still
exported, and it receives the tag at position 1, not its rendition
index. -/
theorem c6_counterexample :
    (exportFromSmil (fun u => .ok (u, u ++ ".d")) (fun _ => none)
      { mp := none, paths := [], exported := [], elementsFromSmil := [],
        qualityTags := ["high", "low"] }
      { tag := "catalog", id := "s1", flavor := none, transport := some "x",
        mimetype := none, tags := none, url := "s.smil" }
      [⟨2000, "a"⟩, ⟨1000, "a"⟩, ⟨500, "c"⟩]).1.elementsFromSmil.map
        (fun e => (e.url, e.tags))
      = [("a.d", some ["high"]), ("c.d", some ["low"])] := by decide

/-- Witness for `c6_flattener_quality_tags` at a concrete input. -/
theorem c6_flattener_quality_tags_witness :
    ((sortVideos [⟨2000, "a"⟩, ⟨1000, "a"⟩, ⟨500, "c"⟩]).Pairwise
      fun a b => b.bitrate ≤ a.bitrate) ∧
    ∃ new,
      (exportFromSmil (fun u => .ok (u, u ++ ".d")) (fun _ => none)
        { mp := none, paths := [], exported := [], elementsFromSmil := [],
          qualityTags := ["high", "low"] }
        { tag := "catalog", id := "s1", flavor := none, transport := some "x",
          mimetype := none, tags := none, url := "s.smil" }
        [⟨2000, "a"⟩, ⟨1000, "a"⟩, ⟨500, "c"⟩]).1.elementsFromSmil
        = [] ++ new ∧
      new.length ≤ 2 ∧
      ∀ j (hj : j < new.length),
        ∃ ts, (new.get ⟨j, hj⟩).tags
          = some (ts ++ [(["high", "low"] : List String).getD j ""]) :=
  c6_flattener_quality_tags (fun u => .ok (u, u ++ ".d")) (fun _ => none)
    { mp := none, paths := [], exported := [], elementsFromSmil := [],
      qualityTags := ["high", "low"] }
    { tag := "catalog", id := "s1", flavor := none, transport := some "x",
      mimetype := none, tags := none, url := "s.smil" }
    [⟨2000, "a"⟩, ⟨1000, "a"⟩, ⟨500, "c"⟩]
    (by decide)

/-! ## Claim C7: path-layer lemmas -/

theorem specJoinSegs_cons (s : List Char) (rest : List (List Char))
    (h : rest ≠ []) :
    specJoinSegs (s :: rest) = s ++ '/' :: specJoinSegs rest := by
  cases rest with
  | nil => exact absurd rfl h
  | cons t ts => rfl

theorem specJoinSegs_append (xs ys : List (List Char)) (hx : xs ≠ [])
    (hy : ys ≠ []) :
    specJoinSegs (xs ++ ys) = specJoinSegs xs ++ '/' :: specJoinSegs ys := by
  induction xs with
  | nil => exact absurd rfl hx
  | cons s rest ih =>
    cases hr : rest with
    | nil =>
      cases ys with
      | nil => exact absurd rfl hy
      | cons y yt => simp [specJoinSegs_cons, specJoinSegs]
    | cons t ts =>
      rw [hr] at ih
      rw [List.cons_append]
      rw [specJoinSegs_cons s (t :: ts ++ ys) (by simp),
        specJoinSegs_cons s (t :: ts) (by simp),
        ih (by simp)]
      simp

theorem mem_specJoinSegs (ch : Char) (ss : List (List Char))
    (h : ch ∈ specJoinSegs ss) : ch = '/' ∨ ∃ s ∈ ss, ch ∈ s := by
  induction ss with
  | nil => simp [specJoinSegs] at h
  | cons s rest ih =>
    cases hr : rest with
    | nil =>
      subst hr
      exact Or.inr ⟨s, by simp, h⟩
    | cons t ts =>
      rw [hr] at h ih
      rw [specJoinSegs_cons s (t :: ts) (by simp)] at h
      rcases List.mem_append.mp h with hs | htail
      · exact Or.inr ⟨s, by simp, hs⟩
      · rcases List.mem_cons.mp htail with rfl | hrest
        · exact Or.inl rfl
        · rcases ih hrest with hsl | ⟨u, hu, hcu⟩
          · exact Or.inl hsl
          · exact Or.inr ⟨u, by simp [hu], hcu⟩

theorem specJoinSegs_ne_nil (s : List Char) (rest : List (List Char))
    (hs : s ≠ []) : specJoinSegs (s :: rest) ≠ [] := by
  cases rest with
  | nil => simpa [specJoinSegs]
  | cons t ts =>
    rw [specJoinSegs_cons s (t :: ts) (by simp)]
    simp [hs]

theorem lastPosSucc_not_mem (c : Char) (l : List Char) (h : c ∉ l) :
    lastPosSucc c l = 0 := by
  induction l with
  | nil => rfl
  | cons ch t ih =>
    have h1 : c ∉ t := fun hm => h (List.mem_cons_of_mem ch hm)
    have h2 : ¬ (ch = c) := fun he => h (he ▸ List.mem_cons_self ch t)
    simp [lastPosSucc, ih h1, h2]

theorem lastPosSucc_append (c : Char) (x y : List Char) (h : c ∉ y) :
    lastPosSucc c (x ++ c :: y) = x.length + 1 := by
  induction x with
  | nil =>
    simp [lastPosSucc, lastPosSucc_not_mem c y h]
  | cons ch t ih =>
    simp [lastPosSucc, ih]

theorem partitionColon_not_mem (s : List Char) (h : ':' ∉ s) :
    partitionColon s = (s, none) := by
  induction s with
  | nil => rfl
  | cons c t ih =>
    have h2 : ¬ (c = ':') := fun he => h (he ▸ List.mem_cons_self c t)
    have h1 : ':' ∉ t := fun hm => h (List.mem_cons_of_mem c hm)
    simp [partitionColon, h2, ih h1]

theorem rstripSlash_no_trailing (l : List Char)
    (h : l.getLast? ≠ some '/') : rstripSlash l = l := by
  unfold rstripSlash
  cases hl : l.reverse with
  | nil =>
    simp at hl
    simp [hl]
  | cons c t =>
    have hc : ¬ (c = '/') := by
      intro he
      apply h
      rw [← List.head?_reverse, hl, he]
      rfl
    rw [List.dropWhile_cons]
    simp only [decide_eq_true_eq, hc, if_false]
    rw [← hl, List.reverse_reverse]

theorem pyDirname_append (x y : List Char) (hy : '/' ∉ y)
    (hx : ∃ ch ∈ x, ch ≠ '/') (hlast : x.getLast? ≠ some '/') :
    pyDirname (x ++ '/' :: y) = x := by
  simp only [pyDirname, pySplit]
  rw [lastPosSucc_append '/' x y hy]
  have htake : (x ++ '/' :: y).take (x.length + 1) = x ++ ['/'] := by
    rw [show x ++ '/' :: y = (x ++ ['/']) ++ y by simp]
    rw [List.take_append_of_le_length (by simp)]
    rw [List.take_of_length_le (by simp)]
  rw [htake]
  obtain ⟨ch, hch, hchne⟩ := hx
  rw [if_pos ⟨by simp, List.any_eq_true.mpr ⟨ch, by simp [hch], by simpa using hchne⟩⟩]
  have hdw : List.dropWhile (fun ch => decide (ch = '/')) x.reverse
      = x.reverse := by
    cases hxr : x.reverse with
    | nil => rfl
    | cons c t =>
      have hc : ¬ (c = '/') := by
        intro he
        apply hlast
        rw [← List.head?_reverse, hxr, he]
        rfl
      rw [List.dropWhile_cons]
      simp [hc]
  show rstripSlash (x ++ ['/']) = x
  unfold rstripSlash
  rw [show (x ++ ['/']).reverse = '/' :: x.reverse by simp]
  rw [List.dropWhile_cons]
  simp [hdw]

theorem pyDirname_root (a : List Char) (ha : '/' ∉ a) :
    pyDirname ('/' :: a) = ['/'] := by
  simp only [pyDirname, pySplit]
  rw [show ('/' :: a) = [] ++ '/' :: a from rfl,
    lastPosSucc_append '/' [] a ha]
  simp

theorem splitext_at_last_dot (x stem ext : List Char)
    (hstem : stem ≠ []) (hsd : '.' ∉ stem) (hss : '/' ∉ stem)
    (hed : '.' ∉ ext) (hes : '/' ∉ ext) :
    splitext (x ++ '/' :: (stem ++ '.' :: ext))
      = (x ++ '/' :: stem, '.' :: ext) := by
  have hs1 : '/' ∉ stem ++ '.' :: ext := by
    intro hm
    rcases List.mem_append.mp hm with h | h
    · exact hss h
    · rcases List.mem_cons.mp h with h | h
      · exact absurd h (by decide)
      · exact hes h
  have e1 : lastPosSucc '/' (x ++ '/' :: (stem ++ '.' :: ext)) = x.length + 1 :=
    lastPosSucc_append '/' x _ hs1
  have e2 : lastPosSucc '.' (x ++ '/' :: (stem ++ '.' :: ext))
      = x.length + stem.length + 2 := by
    rw [show x ++ '/' :: (stem ++ '.' :: ext)
      = (x ++ '/' :: stem) ++ '.' :: ext by simp]
    rw [lastPosSucc_append '.' (x ++ '/' :: stem) ext hed]
    simp
    omega
  simp only [splitext, pyRfind, e1, e2]
  rw [if_pos (by push_cast; omega)]
  have hfs : (((x.length + 1 : Nat) : Int) - 1 + 1).toNat = x.length + 1 := by
    omega
  have hdn : (((x.length + stem.length + 2 : Nat) : Int) - 1).toNat
      = x.length + stem.length + 1 := by
    omega
  rw [hfs, hdn]
  have hdrop : (x ++ '/' :: (stem ++ '.' :: ext)).drop (x.length + 1)
      = stem ++ '.' :: ext := by
    rw [show x ++ '/' :: (stem ++ '.' :: ext)
      = (x ++ ['/']) ++ (stem ++ '.' :: ext) by simp]
    rw [show x.length + 1 = (x ++ ['/']).length by simp]
    exact List.drop_left _ _
  rw [hdrop]
  rw [show x.length + stem.length + 1 - (x.length + 1) = stem.length by omega]
  rw [List.take_left]
  have hany : (stem.any fun ch => decide (ch ≠ '.')) = true := by
    cases stem with
    | nil => exact absurd rfl hstem
    | cons c cs =>
      have hc : c ≠ '.' := fun he => hsd (by rw [← he]; exact List.mem_cons_self c cs)
      simp [hc]
  rw [if_pos hany]
  have htake2 : (x ++ '/' :: (stem ++ '.' :: ext)).take (x.length + stem.length + 1)
      = x ++ '/' :: stem := by
    rw [show x ++ '/' :: (stem ++ '.' :: ext)
      = (x ++ '/' :: stem) ++ '.' :: ext by simp]
    rw [show x.length + stem.length + 1 = (x ++ '/' :: stem).length by
      simp
      omega]
    exact List.take_left _ _
  have hdrop2 : (x ++ '/' :: (stem ++ '.' :: ext)).drop (x.length + stem.length + 1)
      = '.' :: ext := by
    rw [show x ++ '/' :: (stem ++ '.' :: ext)
      = (x ++ '/' :: stem) ++ '.' :: ext by simp]
    rw [show x.length + stem.length + 1 = (x ++ '/' :: stem).length by
      simp
      omega]
    exact List.drop_left _ _
  rw [htake2, hdrop2]

theorem splitSlash_no_slash (a : List Char) (h : '/' ∉ a) :
    splitSlash a = [a] := by
  induction a with
  | nil => rfl
  | cons c t ih =>
    have hc : ¬ (c = '/') := fun he => h (he ▸ List.mem_cons_self c t)
    have ht : '/' ∉ t := fun hm => h (List.mem_cons_of_mem c hm)
    simp [splitSlash, hc, ih ht]

theorem splitSlash_append (a r : List Char) (h : '/' ∉ a) :
    splitSlash (a ++ '/' :: r) = a :: splitSlash r := by
  induction a with
  | nil => simp [splitSlash]
  | cons c t ih =>
    have hc : ¬ (c = '/') := fun he => h (he ▸ List.mem_cons_self c t)
    have ht : '/' ∉ t := fun hm => h (List.mem_cons_of_mem c hm)
    rw [List.cons_append]
    simp only [splitSlash, hc, if_false, ih ht]

theorem splitSlash_J (ss : List (List Char)) (hne : ss ≠ [])
    (hclean : ∀ s ∈ ss, '/' ∉ s) :
    splitSlash (specJoinSegs ss) = ss := by
  induction ss with
  | nil => exact absurd rfl hne
  | cons s rest ih =>
    cases hr : rest with
    | nil =>
      subst hr
      simpa [specJoinSegs] using splitSlash_no_slash s (hclean s (by simp))
    | cons t ts =>
      rw [hr] at ih
      rw [specJoinSegs_cons s (t :: ts) (by simp)]
      rw [splitSlash_append s _ (hclean s (by simp))]
      rw [ih (by simp) (fun u hu => hclean u (by simp [hr, List.mem_cons_of_mem, hu]))]

theorem specJoinSegs_shape (s : List Char) (rest : List (List Char)) :
    ∃ X, specJoinSegs (s :: rest) = s ++ X := by
  cases rest with
  | nil => exact ⟨[], by simp [specJoinSegs]⟩
  | cons t ts => exact ⟨'/' :: specJoinSegs (t :: ts),
      specJoinSegs_cons s (t :: ts) (by simp)⟩

theorem getLast_J_ne_slash (ss : List (List Char)) (hne : ss ≠ [])
    (hclean : ∀ s ∈ ss, s ≠ [] ∧ '/' ∉ s) :
    (specJoinSegs ss).getLast? ≠ some '/' := by
  induction ss with
  | nil => exact absurd rfl hne
  | cons s rest ih =>
    cases hr : rest with
    | nil =>
      subst hr
      intro hl
      have hm : '/' ∈ s := by
        have := List.mem_of_mem_getLast? (l := specJoinSegs [s]) hl
        simpa [specJoinSegs] using this
      exact (hclean s (by simp)).2 hm
    | cons t ts =>
      rw [hr] at ih
      have hlem := ih (by simp) (fun u hu => hclean u (by simp [hr, hu]))
      rw [specJoinSegs_cons s (t :: ts) (by simp)]
      have hJne : specJoinSegs (t :: ts) ≠ [] :=
        specJoinSegs_ne_nil t ts (hclean t (by simp [hr])).1
      cases hJ : specJoinSegs (t :: ts) with
      | nil => exact absurd hJ hJne
      | cons y ys =>
        rw [hJ] at hlem
        rw [List.getLast?_append, List.getLast?_cons_cons]
        cases hyl : (y :: ys).getLast? with
        | none => simp at hyl
        | some z =>
          rw [hyl] at hlem
          simpa [Option.or] using hlem

theorem normpath_foldl (ini : Nat) (comps acc : List (List Char))
    (h : ∀ s ∈ comps, s ≠ [] ∧ s ≠ ['.'] ∧ s ≠ ['.', '.']) :
    comps.foldl (fun acc comp =>
      if comp = [] ∨ comp = ['.'] then acc
      else if comp ≠ ['.', '.'] ∨ (ini = 0 ∧ acc = []) ∨
          (acc ≠ [] ∧ acc.getLast? = some ['.', '.']) then acc ++ [comp]
      else if acc ≠ [] then acc.dropLast
      else acc) acc = acc ++ comps := by
  induction comps generalizing acc with
  | nil => simp
  | cons cmp rest ih =>
    obtain ⟨h1, h2, h3⟩ := h cmp (by simp)
    rw [List.foldl_cons]
    rw [if_neg (by simp [h1, h2])]
    rw [if_pos (Or.inl h3)]
    rw [ih (acc ++ [cmp]) (fun s hs => h s (by simp [hs]))]
    simp

theorem intercalate_slash (ss : List (List Char)) :
    List.intercalate ['/'] ss = specJoinSegs ss := by
  induction ss with
  | nil => rfl
  | cons s rest ih =>
    cases hr : rest with
    | nil => simp [List.intercalate, specJoinSegs]
    | cons t ts =>
      rw [hr] at ih
      rw [specJoinSegs_cons s (t :: ts) (by simp)]
      rw [← ih]
      simp [List.intercalate]

theorem head_J_ne_slash (s : List Char) (rest : List (List Char))
    (hs : s ≠ []) (hsl : '/' ∉ s) :
    (specJoinSegs (s :: rest)).head? ≠ some '/' := by
  obtain ⟨X, hX⟩ := specJoinSegs_shape s rest
  rw [hX]
  cases s with
  | nil => exact absurd rfl hs
  | cons c cs =>
    intro he
    simp at he
    exact hsl (he ▸ List.mem_cons_self c cs)

theorem normpath_abs (ss : List (List Char))
    (hclean : ∀ s ∈ ss, s ≠ [] ∧ '/' ∉ s ∧ s ≠ ['.'] ∧ s ≠ ['.', '.']) :
    normpath ('/' :: specJoinSegs ss) = '/' :: specJoinSegs ss := by
  cases ss with
  | nil => decide
  | cons s rest =>
    have hs := hclean s (by simp)
    simp only [normpath]
    rw [if_neg (by simp)]
    have hhead : ('/' :: specJoinSegs (s :: rest)).head? = some '/' := rfl
    rw [if_pos hhead]
    have htake2 : ¬ (('/' :: specJoinSegs (s :: rest)).take 2 = ['/', '/'] ∧
        ('/' :: specJoinSegs (s :: rest)).take 3 ≠ ['/', '/', '/']) := by
      rintro ⟨h2, _⟩
      apply head_J_ne_slash s rest hs.1 hs.2.1
      cases hJ : specJoinSegs (s :: rest) with
      | nil =>
        rw [hJ] at h2
        simp at h2
      | cons y ys =>
        simp at h2
        rw [hJ] at h2
        simp at h2
        simp [h2]
    rw [if_neg htake2]
    rw [show splitSlash ('/' :: specJoinSegs (s :: rest))
      = [] :: splitSlash (specJoinSegs (s :: rest)) by simp [splitSlash]]
    rw [splitSlash_J (s :: rest) (by simp) (fun u hu => (hclean u hu).2.1)]
    rw [List.foldl_cons]
    rw [show (if ([] : List Char) = [] ∨ ([] : List Char) = ['.'] then ([] : List (List Char))
      else if ([] : List Char) ≠ ['.', '.'] ∨ (1 = 0 ∧ ([] : List (List Char)) = []) ∨
          (([] : List (List Char)) ≠ [] ∧ ([] : List (List Char)).getLast? = some ['.', '.'])
        then [] ++ [[]]
      else if ([] : List (List Char)) ≠ [] then ([] : List (List Char)).dropLast
      else []) = ([] : List (List Char)) by simp]
    rw [normpath_foldl 1 (s :: rest) []
      (fun u hu => ⟨(hclean u hu).1, (hclean u hu).2.2.1, (hclean u hu).2.2.2⟩)]
    rw [List.nil_append, intercalate_slash]
    rw [if_neg (by simp)]
    rfl

theorem normpath_rel (ss : List (List Char)) (hne : ss ≠ [])
    (hclean : ∀ s ∈ ss, s ≠ [] ∧ '/' ∉ s ∧ s ≠ ['.'] ∧ s ≠ ['.', '.']) :
    normpath (specJoinSegs ss) = specJoinSegs ss := by
  cases ss with
  | nil => exact absurd rfl hne
  | cons s rest =>
    have hs := hclean s (by simp)
    have hJne : specJoinSegs (s :: rest) ≠ [] := specJoinSegs_ne_nil s rest hs.1
    simp only [normpath]
    rw [if_neg hJne]
    rw [if_neg (head_J_ne_slash s rest hs.1 hs.2.1)]
    rw [splitSlash_J (s :: rest) (by simp) (fun u hu => (hclean u hu).2.1)]
    rw [normpath_foldl 0 (s :: rest) []
      (fun u hu => ⟨(hclean u hu).1, (hclean u hu).2.2.1, (hclean u hu).2.2.2⟩)]
    rw [List.nil_append, intercalate_slash]
    simp [hJne]

theorem strLtB_irrefl (a : List Char) : strLtB a a = false := by
  induction a with
  | nil => rfl
  | cons c cs ih => simp [strLtB, ih]

theorem strListLtB_append_self (u t : List (List Char)) :
    strListLtB (u ++ t) u = false := by
  induction u with
  | nil =>
    cases t with
    | nil => rfl
    | cons a as => rfl
  | cons a as ih => simp [strListLtB, strLtB_irrefl, ih]

theorem strListLtB_self_append (u t : List (List Char)) (ht : t ≠ []) :
    strListLtB u (u ++ t) = true := by
  induction u with
  | nil =>
    cases t with
    | nil => exact absurd rfl ht
    | cons a as => rfl
  | cons a as ih => simp [strListLtB, strLtB_irrefl, ih]

theorem strListLtB_irrefl (u : List (List Char)) : strListLtB u u = false := by
  induction u with
  | nil => rfl
  | cons a as ih => simp [strListLtB, strLtB_irrefl, ih]

theorem lcpScan_initial (u t : List (List Char)) : lcpScan u (u ++ t) = u := by
  induction u with
  | nil => cases t <;> rfl
  | cons a as ih => simp [lcpScan, ih]

theorem commonPref_initial (u t : List (List Char)) :
    commonPref u (u ++ t) = u := by
  unfold commonPref
  rw [strListLtB_append_self]
  cases t with
  | nil =>
    have h1 := strListLtB_irrefl u
    have h2 : lcpScan u u = u := by simpa using lcpScan_initial u []
    simp [h1, h2]
  | cons a as =>
    rw [strListLtB_self_append u (a :: as) (by simp)]
    simp [lcpScan_initial]

theorem nonEmptySegs_abs (ss : List (List Char))
    (hclean : ∀ s ∈ ss, s ≠ [] ∧ '/' ∉ s) :
    nonEmptySegs ('/' :: specJoinSegs ss) = ss := by
  cases ss with
  | nil => decide
  | cons s rest =>
    unfold nonEmptySegs
    rw [show splitSlash ('/' :: specJoinSegs (s :: rest))
      = [] :: splitSlash (specJoinSegs (s :: rest)) by simp [splitSlash]]
    rw [splitSlash_J (s :: rest) (by simp) (fun u hu => (hclean u hu).2)]
    rw [List.filter_cons]
    rw [if_neg (by simp)]
    exact List.filter_eq_self.mpr (fun u hu => by simp [(hclean u hu).1])

theorem foldl_pyJoin2 (rest : List (List Char)) :
    ∀ (acc : List Char), acc ≠ [] → acc.getLast? ≠ some '/' →
    (∀ s ∈ rest, s ≠ [] ∧ '/' ∉ s) →
    List.foldl pyJoin2 acc rest
      = acc ++ (if rest = [] then [] else '/' :: specJoinSegs rest) := by
  induction rest with
  | nil => intro acc _ _ _; simp
  | cons b bs ih =>
    intro acc hacc hlast hr
    obtain ⟨hb, hbs⟩ := hr b (by simp)
    rw [List.foldl_cons]
    have hjoin : pyJoin2 acc b = acc ++ '/' :: b := by
      unfold pyJoin2
      rw [if_neg (by
        cases b with
        | nil => exact absurd rfl hb
        | cons c cs =>
          intro he
          simp at he
          exact hbs (he ▸ List.mem_cons_self c cs))]
      rw [if_neg (by
        rintro (h1 | h2)
        · exact hacc h1
        · exact hlast h2)]
    rw [hjoin]
    have hlast2 : (acc ++ '/' :: b).getLast? ≠ some '/' := by
      cases hbv : b with
      | nil => exact absurd hbv hb
      | cons c cs =>
        rw [List.getLast?_append]
        rw [List.getLast?_cons_cons]
        cases hyl : (c :: cs).getLast? with
        | none => simp at hyl
        | some z =>
          have hz : z ∈ c :: cs := List.mem_of_mem_getLast? hyl
          intro he
          simp [Option.or] at he
          exact hbs (by rw [← hbv] at hz; rw [he] at hz; exact hz)
    cases hbsv : bs with
    | nil =>
      subst hbsv
      rw [ih (acc ++ '/' :: b) (by simp) hlast2 (by simp)]
      simp [specJoinSegs]
    | cons b2 bs2 =>
      subst hbsv
      rw [ih (acc ++ '/' :: b) (by simp) hlast2
        (fun s hs => hr s (by simp [hs]))]
      rw [if_neg (by simp), if_neg (by simp)]
      rw [specJoinSegs_cons b (b2 :: bs2) (by simp)]
      simp

theorem joinAll_eq (ss : List (List Char))
    (hclean : ∀ s ∈ ss, s ≠ [] ∧ '/' ∉ s) :
    joinAll ss = specJoinSegs ss := by
  cases ss with
  | nil => rfl
  | cons s rest =>
    obtain ⟨hs, hsl⟩ := hclean s (by simp)
    show List.foldl pyJoin2 s rest = specJoinSegs (s :: rest)
    rw [foldl_pyJoin2 rest s hs
      (by
        cases hsv : s with
        | nil => exact absurd hsv hs
        | cons c cs =>
          intro he
          have hm := List.mem_of_mem_getLast? he
          rw [← hsv] at hm
          exact hsl hm)
      (fun u hu => hclean u (by simp [hu]))]
    cases rest with
    | nil => simp [specJoinSegs]
    | cons t ts =>
      rw [if_neg (by simp), specJoinSegs_cons s (t :: ts) (by simp)]

theorem pyAbspath_of_abs_clean (cwd : List Char) (ss : List (List Char))
    (hclean : ∀ s ∈ ss, s ≠ [] ∧ '/' ∉ s ∧ s ≠ ['.'] ∧ s ≠ ['.', '.']) :
    pyAbspath cwd ('/' :: specJoinSegs ss) = '/' :: specJoinSegs ss := by
  unfold pyAbspath
  rw [if_pos (by simp [isabs])]
  exact normpath_abs ss hclean

theorem pyAbspath_of_rel_clean (cs ds : List (List Char)) (hd : ds ≠ [])
    (hcs : ∀ s ∈ cs, s ≠ [] ∧ '/' ∉ s ∧ s ≠ ['.'] ∧ s ≠ ['.', '.'])
    (hds : ∀ s ∈ ds, s ≠ [] ∧ '/' ∉ s ∧ s ≠ ['.'] ∧ s ≠ ['.', '.']) :
    pyAbspath ('/' :: specJoinSegs cs) (specJoinSegs ds)
      = '/' :: specJoinSegs (cs ++ ds) := by
  cases ds with
  | nil => exact absurd rfl hd
  | cons d dt =>
    have hdc := hds d (by simp)
    unfold pyAbspath
    rw [if_neg (by
      intro h
      apply head_J_ne_slash d dt hdc.1 hdc.2.1
      simpa [isabs] using h)]
    have hjoin : pyJoin2 ('/' :: specJoinSegs cs) (specJoinSegs (d :: dt))
        = '/' :: specJoinSegs (cs ++ d :: dt) := by
      unfold pyJoin2
      rw [if_neg (head_J_ne_slash d dt hdc.1 hdc.2.1)]
      cases hcs0 : cs with
      | nil =>
        rw [if_pos (Or.inr (by simp [specJoinSegs]))]
        simp [specJoinSegs]
      | cons c0 cst =>
        have hc0 := hcs c0 (by rw [hcs0]; simp)
        have hJne : specJoinSegs (c0 :: cst) ≠ [] :=
          specJoinSegs_ne_nil c0 cst hc0.1
        rw [if_neg (by
          rintro (h1 | h2)
          · exact absurd h1 (by simp)
          · apply getLast_J_ne_slash (c0 :: cst) (by simp)
              (fun v hv => ⟨(hcs v (by rw [hcs0]; exact hv)).1,
                (hcs v (by rw [hcs0]; exact hv)).2.1⟩)
            cases hJ : specJoinSegs (c0 :: cst) with
            | nil => exact absurd hJ hJne
            | cons y ys =>
              rw [hJ] at h2
              rw [List.getLast?_cons_cons] at h2
              exact h2)]
        rw [specJoinSegs_append (c0 :: cst) (d :: dt) (by simp) (by simp)]
        simp
    rw [hjoin]
    exact normpath_abs (cs ++ d :: dt) (fun u hu => by
      rcases List.mem_append.mp hu with h | h
      · exact hcs u h
      · exact hds u h)

theorem pyRelpath_drop (cwd path start : List Char) (u t : List (List Char))
    (hpa : pyAbspath cwd path = '/' :: specJoinSegs (u ++ t))
    (hsa : pyAbspath cwd start = '/' :: specJoinSegs u)
    (hne : ¬ (path = [])) (ht : ¬ (t = []))
    (hu : ∀ s ∈ u, s ≠ [] ∧ '/' ∉ s) (htc : ∀ s ∈ t, s ≠ [] ∧ '/' ∉ s) :
    pyRelpath cwd path start = .ok (joinAll t) := by
  have hclean2 : ∀ s ∈ u ++ t, s ≠ [] ∧ '/' ∉ s := by
    intro s hs
    rcases List.mem_append.mp hs with h | h
    · exact hu s h
    · exact htc s h
  simp only [pyRelpath]
  rw [if_neg hne]
  rw [hsa, hpa, nonEmptySegs_abs u hu, nonEmptySegs_abs (u ++ t) hclean2]
  rw [commonPref_initial u t]
  have hrel : List.replicate (u.length - u.length) ['.', '.']
      ++ (u ++ t).drop u.length = t := by
    rw [Nat.sub_self]
    simp [List.drop_left]
  rw [hrel]
  rw [if_neg ht]

theorem cleanSeg_c4 (L : List (List Char)) (h : ∀ s ∈ L, cleanSeg s) :
    ∀ s ∈ L, s ≠ [] ∧ '/' ∉ s ∧ s ≠ ['.'] ∧ s ≠ ['.', '.'] :=
  fun s hs => ⟨(h s hs).1, (h s hs).2.1, (h s hs).2.2.2.1, (h s hs).2.2.2.2⟩

theorem cleanSeg_c2 (L : List (List Char)) (h : ∀ s ∈ L, cleanSeg s) :
    ∀ s ∈ L, s ≠ [] ∧ '/' ∉ s :=
  fun s hs => ⟨(h s hs).1, (h s hs).2.1⟩

theorem abs_has_non_slash (s0 : List Char) (r : List (List Char))
    (h0 : s0 ≠ []) (hsl : '/' ∉ s0) :
    ∃ ch ∈ '/' :: specJoinSegs (s0 :: r), ch ≠ '/' := by
  obtain ⟨X, hX⟩ := specJoinSegs_shape s0 r
  cases hsv : s0 with
  | nil => exact absurd hsv h0
  | cons ch cs =>
    rw [hsv] at hX
    refine ⟨ch, ?_, ?_⟩
    · rw [hX]
      simp
    · intro he
      exact hsl (by rw [hsv, he]; exact List.mem_cons_self '/' cs)

theorem J_has_non_slash (s0 : List Char) (r : List (List Char))
    (h0 : s0 ≠ []) (hsl : '/' ∉ s0) :
    ∃ ch ∈ specJoinSegs (s0 :: r), ch ≠ '/' := by
  obtain ⟨X, hX⟩ := specJoinSegs_shape s0 r
  cases hsv : s0 with
  | nil => exact absurd hsv h0
  | cons ch cs =>
    rw [hsv] at hX
    refine ⟨ch, ?_, ?_⟩
    · rw [hX]
      simp
    · intro he
      exact hsl (by rw [hsv, he]; exact List.mem_cons_self '/' cs)

theorem abs_getLast_ne (ss : List (List Char)) (hne : ss ≠ [])
    (hclean : ∀ s ∈ ss, s ≠ [] ∧ '/' ∉ s) :
    ('/' :: specJoinSegs ss).getLast? ≠ some '/' := by
  cases ss with
  | nil => exact absurd rfl hne
  | cons s0 r =>
    have hJne : specJoinSegs (s0 :: r) ≠ [] :=
      specJoinSegs_ne_nil s0 r (hclean s0 (by simp)).1
    cases hJ : specJoinSegs (s0 :: r) with
    | nil => exact absurd hJ hJne
    | cons y ys =>
      rw [List.getLast?_cons_cons]
      rw [← hJ]
      exact getLast_J_ne_slash (s0 :: r) (by simp) hclean

theorem pyDirname_abs_segs (ss : List (List Char)) (y : List Char)
    (hclean : ∀ s ∈ ss, s ≠ [] ∧ '/' ∉ s) (hy : '/' ∉ y) :
    pyDirname ('/' :: specJoinSegs (ss ++ [y])) = '/' :: specJoinSegs ss := by
  cases ss with
  | nil => simpa [specJoinSegs] using pyDirname_root y hy
  | cons s0 r =>
    rw [specJoinSegs_append (s0 :: r) [y] (by simp) (by simp)]
    rw [show ('/' :: (specJoinSegs (s0 :: r) ++ '/' :: specJoinSegs [y]))
      = ('/' :: specJoinSegs (s0 :: r)) ++ '/' :: y by simp [specJoinSegs]]
    exact pyDirname_append ('/' :: specJoinSegs (s0 :: r)) y hy
      (abs_has_non_slash s0 r (hclean s0 (by simp)).1 (hclean s0 (by simp)).2)
      (abs_getLast_ne (s0 :: r) (by simp) hclean)

theorem pyDirname_rel_segs (ss : List (List Char)) (y : List Char)
    (hne : ss ≠ []) (hclean : ∀ s ∈ ss, s ≠ [] ∧ '/' ∉ s) (hy : '/' ∉ y) :
    pyDirname (specJoinSegs (ss ++ [y])) = specJoinSegs ss := by
  cases ss with
  | nil => exact absurd rfl hne
  | cons s0 r =>
    rw [specJoinSegs_append (s0 :: r) [y] (by simp) (by simp)]
    rw [show specJoinSegs [y] = y from rfl]
    exact pyDirname_append (specJoinSegs (s0 :: r)) y hy
      (J_has_non_slash s0 r (hclean s0 (by simp)).1 (hclean s0 (by simp)).2)
      (getLast_J_ne_slash (s0 :: r) (by simp) hclean)

theorem colon_not_mem_abs (ss : List (List Char))
    (h : ∀ s ∈ ss, ':' ∉ s) : ':' ∉ '/' :: specJoinSegs ss := by
  intro hm
  rcases List.mem_cons.mp hm with he | hJ
  · exact absurd he (by decide)
  · rcases mem_specJoinSegs ':' ss hJ with he | ⟨s, hs, hcs⟩
    · exact absurd he (by decide)
    · exact h s hs hcs

theorem getCleanPath_no_tag (cwd scheme netloc upath : List Char)
    (hsch : ¬ (scheme ≠ [] ∧ netloc = []))
    (hcol : ':' ∉ upath)
    (hext0 : ¬ ((splitext upath).2 = []))
    (hsmil : (splitext upath).2 ≠ SMIL_EXT_C) :
    getCleanPath cwd scheme netloc upath
      = (pyRelpath cwd upath
          (pyDirname (pyDirname (pyDirname (pyDirname upath))))).map normpath := by
  simp only [getCleanPath]
  rw [if_neg hsch, partitionColon_not_mem upath hcol]
  simp [hext0, hsmil]

theorem cleanSeg_of_filename (stem ext : List Char)
    (hstem1 : stem ≠ []) (hstem2 : '/' ∉ stem) (hstem3 : ':' ∉ stem)
    (hstem4 : '.' ∉ stem) (hext1 : '/' ∉ ext) (hext2 : ':' ∉ ext) :
    cleanSeg (stem ++ '.' :: ext) := by
  refine ⟨by simp [hstem1], ?_, ?_, ?_, ?_⟩
  · intro hm
    rcases List.mem_append.mp hm with h | h
    · exact hstem2 h
    · rcases List.mem_cons.mp h with h | h
      · exact absurd h (by decide)
      · exact hext1 h
  · intro hm
    rcases List.mem_append.mp hm with h | h
    · exact hstem3 h
    · rcases List.mem_cons.mp h with h | h
      · exact absurd h (by decide)
      · exact hext2 h
  · intro he
    cases hs : stem with
    | nil => exact hstem1 hs
    | cons s1 st =>
      rw [hs] at he
      simp at he
  · intro he
    cases hs : stem with
    | nil => exact hstem1 hs
    | cons s1 st =>
      rw [hs] at he
      simp at he
      exact hstem4 (by rw [hs, he.1]; exact List.mem_cons_self '.' st)

theorem getCleanPath_concrete (cwd scheme netloc : List Char)
    (ps : List (List Char)) (a b c stem ext : List Char)
    (hsch : ¬ (scheme ≠ [] ∧ netloc = []))
    (hsegs : ∀ s ∈ ps ++ [a, b, c], cleanSeg s)
    (hstem1 : stem ≠ []) (hstem2 : '/' ∉ stem) (hstem3 : ':' ∉ stem)
    (hstem4 : '.' ∉ stem)
    (hext1 : '/' ∉ ext) (hext2 : ':' ∉ ext) (hext3 : '.' ∉ ext)
    (hext4 : ext ≠ ['s', 'm', 'i', 'l']) :
    getCleanPath cwd scheme netloc
        ('/' :: specJoinSegs (ps ++ [a, b, c, stem ++ '.' :: ext]))
      = .ok (specJoinSegs [a, b, c, stem ++ '.' :: ext]) := by
  have hfour : cleanSeg (stem ++ '.' :: ext) :=
    cleanSeg_of_filename stem ext hstem1 hstem2 hstem3 hstem4 hext1 hext2
  have hall : ∀ s ∈ ps ++ [a, b, c, stem ++ '.' :: ext], cleanSeg s := by
    intro s hs
    rcases List.mem_append.mp hs with h | h
    · exact hsegs s (List.mem_append.mpr (Or.inl h))
    · simp at h
      rcases h with h | h | h | h
      · rw [h]; exact hsegs a (by simp)
      · rw [h]; exact hsegs b (by simp)
      · rw [h]; exact hsegs c (by simp)
      · rw [h]; exact hfour
  have hP : ('/' :: specJoinSegs (ps ++ [a, b, c, stem ++ '.' :: ext]))
      = ('/' :: specJoinSegs (ps ++ [a, b, c])) ++ '/' :: (stem ++ '.' :: ext) := by
    rw [show ps ++ [a, b, c, stem ++ '.' :: ext]
      = (ps ++ [a, b, c]) ++ [stem ++ '.' :: ext] by simp]
    rw [specJoinSegs_append (ps ++ [a, b, c]) [stem ++ '.' :: ext]
      (by simp) (by simp)]
    simp [specJoinSegs]
  have hsplit : splitext ('/' :: specJoinSegs (ps ++ [a, b, c, stem ++ '.' :: ext]))
      = (('/' :: specJoinSegs (ps ++ [a, b, c])) ++ '/' :: stem, '.' :: ext) := by
    rw [hP]
    exact splitext_at_last_dot _ stem ext hstem1 hstem4 hstem2 hext3 hext1
  have hcol : ':' ∉ ('/' :: specJoinSegs (ps ++ [a, b, c, stem ++ '.' :: ext])) :=
    colon_not_mem_abs _ (fun s hs => (hall s hs).2.2.1)
  rw [getCleanPath_no_tag cwd scheme netloc _ hsch hcol
    (by rw [hsplit]; simp) (by rw [hsplit]; simp [SMIL_EXT_C, hext4])]
  have hd1 : pyDirname ('/' :: specJoinSegs (ps ++ [a, b, c, stem ++ '.' :: ext]))
      = '/' :: specJoinSegs (ps ++ [a, b, c]) := by
    rw [show ps ++ [a, b, c, stem ++ '.' :: ext]
      = (ps ++ [a, b, c]) ++ [stem ++ '.' :: ext] by simp]
    exact pyDirname_abs_segs _ _ (cleanSeg_c2 _ hsegs) (hfour.2.1)
  have hd2 : pyDirname ('/' :: specJoinSegs (ps ++ [a, b, c]))
      = '/' :: specJoinSegs (ps ++ [a, b]) := by
    rw [show ps ++ [a, b, c] = (ps ++ [a, b]) ++ [c] by simp]
    exact pyDirname_abs_segs _ _
      (fun s hs => cleanSeg_c2 _ hsegs s (by simp at hs ⊢; tauto))
      (hsegs c (by simp)).2.1
  have hd3 : pyDirname ('/' :: specJoinSegs (ps ++ [a, b]))
      = '/' :: specJoinSegs (ps ++ [a]) := by
    rw [show ps ++ [a, b] = (ps ++ [a]) ++ [b] by simp]
    exact pyDirname_abs_segs _ _
      (fun s hs => cleanSeg_c2 _ hsegs s (by simp at hs ⊢; tauto))
      (hsegs b (by simp)).2.1
  have hd4 : pyDirname ('/' :: specJoinSegs (ps ++ [a]))
      = '/' :: specJoinSegs ps := by
    rw [show ps ++ [a] = ps ++ [a] from rfl]
    exact pyDirname_abs_segs _ _
      (fun s hs => cleanSeg_c2 _ hsegs s (by simp at hs ⊢; tauto))
      (hsegs a (by simp)).2.1
  rw [hd1, hd2, hd3, hd4]
  rw [pyRelpath_drop cwd _ _ ps [a, b, c, stem ++ '.' :: ext]
    (pyAbspath_of_abs_clean cwd _ (cleanSeg_c4 _ hall))
    (pyAbspath_of_abs_clean cwd ps (cleanSeg_c4 _
      (fun s hs => hall s (List.mem_append.mpr (Or.inl hs)))))
    (by simp) (by simp)
    (cleanSeg_c2 _ (fun s hs => hall s (List.mem_append.mpr (Or.inl hs))))
    (cleanSeg_c2 _ (fun s hs => hall s (List.mem_append.mpr (Or.inr hs))))]
  have hJ4 : joinAll [a, b, c, stem ++ '.' :: ext]
      = specJoinSegs [a, b, c, stem ++ '.' :: ext] :=
    joinAll_eq _ (cleanSeg_c2 _ (fun s hs => hall s (List.mem_append.mpr (Or.inr hs))))
  have hnorm : normpath (specJoinSegs [a, b, c, stem ++ '.' :: ext])
      = specJoinSegs [a, b, c, stem ++ '.' :: ext] :=
    normpath_rel _ (by simp)
      (cleanSeg_c4 _ (fun s hs => hall s (List.mem_append.mpr (Or.inr hs))))
  simp [Except.map, hJ4, hnorm]

theorem getDstPath_concrete (cs : List (List Char)) (a b c stem ext : List Char)
    (hcs : ∀ s ∈ cs, cleanSeg s)
    (ha : cleanSeg a) (hb : cleanSeg b) (hc : cleanSeg c)
    (hstem1 : stem ≠ []) (hstem2 : '/' ∉ stem) (hstem3 : ':' ∉ stem)
    (hstem4 : '.' ∉ stem)
    (hext1 : '/' ∉ ext) (hext2 : ':' ∉ ext) (hext3 : '.' ∉ ext)
    (hext4 : ext ≠ ['s', 'm', 'i', 'l']) :
    getDstPath ('/' :: specJoinSegs cs)
        (specJoinSegs [a, b, c, stem ++ '.' :: ext])
      = .ok (c ++ '/' :: (stem ++ '.' :: ext)) := by
  have hfour : cleanSeg (stem ++ '.' :: ext) :=
    cleanSeg_of_filename stem ext hstem1 hstem2 hstem3 hstem4 hext1 hext2
  have h4 : ∀ s ∈ [a, b, c, stem ++ '.' :: ext], cleanSeg s := by
    intro s hs
    simp at hs
    rcases hs with h | h | h | h
    · rw [h]; exact ha
    · rw [h]; exact hb
    · rw [h]; exact hc
    · rw [h]; exact hfour
  have hJsplit : specJoinSegs [a, b, c, stem ++ '.' :: ext]
      = specJoinSegs [a, b, c] ++ '/' :: (stem ++ '.' :: ext) := by
    rw [show ([a, b, c, stem ++ '.' :: ext] : List (List Char))
      = [a, b, c] ++ [stem ++ '.' :: ext] by simp]
    rw [specJoinSegs_append [a, b, c] [stem ++ '.' :: ext] (by simp) (by simp)]
    rfl
  have hsplit : splitext (specJoinSegs [a, b, c, stem ++ '.' :: ext])
      = (specJoinSegs [a, b, c] ++ '/' :: stem, '.' :: ext) := by
    rw [hJsplit]
    exact splitext_at_last_dot _ stem ext hstem1 hstem4 hstem2 hext3 hext1
  simp only [getDstPath]
  rw [hsplit]
  rw [if_neg (by simp [SMIL_EXT_C, hext4])]
  have hd1 : pyDirname (specJoinSegs [a, b, c, stem ++ '.' :: ext])
      = specJoinSegs [a, b, c] := by
    rw [show ([a, b, c, stem ++ '.' :: ext] : List (List Char))
      = [a, b, c] ++ [stem ++ '.' :: ext] by simp]
    exact pyDirname_rel_segs [a, b, c] _ (by simp)
      (fun s hs => cleanSeg_c2 _ h4 s (by simp at hs ⊢; tauto))
      hfour.2.1
  have hd2 : pyDirname (specJoinSegs [a, b, c]) = specJoinSegs [a, b] := by
    rw [show ([a, b, c] : List (List Char)) = [a, b] ++ [c] by simp]
    exact pyDirname_rel_segs [a, b] _ (by simp)
      (fun s hs => cleanSeg_c2 _ h4 s (by simp at hs ⊢; tauto))
      hc.2.1
  rw [hd1, hd2]
  have hpa : pyAbspath ('/' :: specJoinSegs cs)
      (specJoinSegs [a, b, c, stem ++ '.' :: ext])
      = '/' :: specJoinSegs ((cs ++ [a, b]) ++ [c, stem ++ '.' :: ext]) := by
    rw [pyAbspath_of_rel_clean cs [a, b, c, stem ++ '.' :: ext] (by simp)
      (cleanSeg_c4 _ hcs) (cleanSeg_c4 _ h4)]
    rw [show (cs ++ [a, b]) ++ [c, stem ++ '.' :: ext]
      = cs ++ [a, b, c, stem ++ '.' :: ext] by simp]
  have hsa : pyAbspath ('/' :: specJoinSegs cs) (specJoinSegs [a, b])
      = '/' :: specJoinSegs (cs ++ [a, b]) := by
    exact pyAbspath_of_rel_clean cs [a, b] (by simp)
      (cleanSeg_c4 _ hcs)
      (cleanSeg_c4 _ (fun s hs => h4 s (by simp at hs ⊢; tauto)))
  rw [pyRelpath_drop ('/' :: specJoinSegs cs) _ _
    (cs ++ [a, b]) [c, stem ++ '.' :: ext]
    hpa hsa
    (specJoinSegs_ne_nil a [b, c, stem ++ '.' :: ext] ha.1)
    (by simp)
    (by
      intro s hs
      rcases List.mem_append.mp hs with h | h
      · exact cleanSeg_c2 _ hcs s h
      · exact cleanSeg_c2 _ h4 s (by simp at h ⊢; tauto))
    (fun s hs => cleanSeg_c2 _ h4 s (by simp at hs ⊢; tauto))]
  rw [joinAll_eq [c, stem ++ '.' :: ext]
    (fun s hs => cleanSeg_c2 _ h4 s (by simp at hs ⊢; tauto))]
  rw [specJoinSegs_cons c [stem ++ '.' :: ext] (by simp)]
  rfl

/-- Claim C7: for every URL without a stream-format tag (HTTP-style
scheme/netloc, no colon in any path segment) whose path has at least four
sane segments and whose filename carries a non-descriptor (non-`.smil`)
extension, the published-store resolution — `_get_clean_path` followed by
`__get_dst_path` — yields exactly the last two segments of the URL path,
`element-id/filename.ext`. -/
theorem c7_published_dst_last_two (cwd scheme netloc : List Char)
    (cs ps : List (List Char)) (a b c stem ext : List Char)
    (hcwd : cwd = '/' :: specJoinSegs cs)
    (hcs : ∀ s ∈ cs, cleanSeg s)
    (hsch : ¬ (scheme ≠ [] ∧ netloc = []))
    (hsegs : ∀ s ∈ ps ++ [a, b, c], cleanSeg s)
    (hstem1 : stem ≠ []) (hstem2 : '/' ∉ stem) (hstem3 : ':' ∉ stem)
    (hstem4 : '.' ∉ stem)
    (hext1 : '/' ∉ ext) (hext2 : ':' ∉ ext) (hext3 : '.' ∉ ext)
    (hext4 : ext ≠ ['s', 'm', 'i', 'l']) :
    (getCleanPath cwd scheme netloc
        ('/' :: specJoinSegs (ps ++ [a, b, c, stem ++ '.' :: ext]))).bind
      (getDstPath cwd)
      = .ok (c ++ '/' :: (stem ++ '.' :: ext)) := by
  subst hcwd
  rw [getCleanPath_concrete _ scheme netloc ps a b c stem ext hsch hsegs
    hstem1 hstem2 hstem3 hstem4 hext1 hext2 hext3 hext4]
  rw [show (Except.ok (specJoinSegs [a, b, c, stem ++ '.' :: ext])
      : Except Exc (List Char)).bind
      (getDstPath ('/' :: specJoinSegs cs))
    = getDstPath ('/' :: specJoinSegs cs)
        (specJoinSegs [a, b, c, stem ++ '.' :: ext]) from rfl]
  exact getDstPath_concrete cs a b c stem ext hcs
    (hsegs a (by simp)) (hsegs b (by simp)) (hsegs c (by simp))
    hstem1 hstem2 hstem3 hstem4 hext1 hext2 hext3 hext4

/-- Witness for `c7_published_dst_last_two` at a concrete input:
`http://host/ch/mpid/eid/f.ext` resolves to `eid/f.ext`. -/
theorem c7_published_dst_last_two_witness :
    (getCleanPath ['/'] ['h', 't', 't', 'p'] ['h', 'o', 's', 't']
        ('/' :: specJoinSegs ([] ++ [['c', 'h'], ['m', 'p', 'i', 'd'],
          ['e', 'i', 'd'], ['f'] ++ '.' :: ['e', 'x', 't']]))).bind
      (getDstPath ['/'])
      = .ok (['e', 'i', 'd'] ++ '/' :: (['f'] ++ '.' :: ['e', 'x', 't'])) :=
  c7_published_dst_last_two ['/'] ['h', 't', 't', 'p'] ['h', 'o', 's', 't']
    [] [] ['c', 'h'] ['m', 'p', 'i', 'd'] ['e', 'i', 'd'] ['f'] ['e', 'x', 't']
    rfl (fun s hs => absurd hs (List.not_mem_nil s)) (by decide)
    (by
      intro s hs
      simp at hs
      rcases hs with h | h | h <;> rw [h] <;>
        exact ⟨by decide, by decide, by decide, by decide, by decide⟩)
    (by decide) (by decide) (by decide) (by decide)
    (by decide) (by decide) (by decide) (by decide)

end Migration
